import Mathlib

/-!
Verification development for the parameter-detection and customization engine
of the `how-to-cli` repository (`src/parameters.py`).

Strings are modelled as `List Char` (Python `str`), character offsets as `Nat`
(Python slicing on the in-range offsets produced by the engine coincides with
`List.take`/`List.drop` clamping).  Filesystem probes (`glob.glob`,
`os.listdir`, `os.path.isdir`, `os.path.isfile`) are modelled as an oracle
`FileSystem` whose results may also be `none` (a raised exception, which the
source catches).  Python regexes are hand-translated into executable scanners
that mirror the backtracking behaviour of the concrete patterns in the source;
`re` character classes `\s` and `\w` are translated at ASCII granularity,
which covers every command the engine is exercised on here.
-/

namespace HowTo

/-- Python strings are modelled as lists of characters. -/
abbrev Str := List Char

/-- Coerce a Lean string literal to the model type. -/
def str (s : String) : Str := s.data

/-- Python slice `s[a:b]` for non-negative bounds (clamping semantics). -/
def sliceN (s : Str) (a b : Nat) : Str := (s.take b).drop a

/-- ASCII whitespace, Python regex class `\s`. -/
def isWs (c : Char) : Bool :=
  c == ' ' || c == '\t' || c == '\n' || c == '\r' || c == '\x0b' || c == '\x0c'

/-- Python regex word character `\w` (ASCII). -/
def isWordChar (c : Char) : Bool := c.isAlphanum || c == '_'

/-- A single or double quote, the character class `["']`. -/
def isQuote (c : Char) : Bool := c == '"' || c == '\''

/-- Lower-case a string (`str.lower()` at ASCII granularity). -/
def lowerStr (s : Str) : Str := s.map Char.toLower

/-- Does `hay` start with `needle`? -/
def startsWithStr : Str → Str → Bool
  | _, [] => true
  | [], _ :: _ => false
  | c :: cs, d :: ds => c == d && startsWithStr cs ds

/-- Does `hay` contain `needle` as a contiguous substring (Python `in`)? -/
def containsSubStr : Str → Str → Bool
  | [], needle => needle.isEmpty
  | c :: cs, needle => startsWithStr (c :: cs) needle || containsSubStr cs needle

/-- Does `s` end with `t`? -/
def endsWithStr (s t : Str) : Bool := startsWithStr s.reverse t.reverse

/-- Python `str.strip()`: remove leading and trailing whitespace. -/
def pyStrip (s : Str) : Str :=
  ((s.dropWhile (fun c => isWs c)).reverse.dropWhile (fun c => isWs c)).reverse

/-- Python `str.title()` (ASCII): upper-case the first letter of each
alphabetic run, lower-case the rest. -/
def pyTitleGo : Bool → Str → Str
  | _, [] => []
  | prevCased, c :: rest =>
    if c.isAlpha then
      (if prevCased then c.toLower else c.toUpper) :: pyTitleGo true rest
    else c :: pyTitleGo false rest

/-- Python `str.title()`. -/
def pyTitle (s : Str) : Str := pyTitleGo false s

/-- Length of the maximal run of characters satisfying `p` at the head. -/
def runLen (p : Char → Bool) : Str → Nat
  | [] => 0
  | c :: cs => if p c then runLen p cs + 1 else 0

/-- `list(dict.fromkeys(xs))` / first-occurrence de-duplication. -/
def distinctAux : List Str → List Str → List Str
  | _, [] => []
  | seen, x :: xs =>
    if seen.contains x then distinctAux seen xs
    else x :: distinctAux (x :: seen) xs

/-- Order-keeping de-duplication (`list(dict.fromkeys(xs))`; also used to
model `list(set(xs))`, whose Python order is unspecified — no theorem below
depends on suggestion order). -/
def distinctList (xs : List Str) : List Str := distinctAux [] xs

/-- `pathlib.Path(name).suffix`: final extension (with dot) of the last
path component, empty when the dot is first or last in the name. -/
def pathSuffix (filename : Str) : Str :=
  let nm := (filename.splitOn '/').getLastD []
  let i := nm.length - (runLen (fun c => !(c == '.')) nm.reverse) - 1
  if 0 < i ∧ i < nm.length - 1 then nm.drop i
  else []

/-- Oracle for the filesystem probes used only to enrich suggestions.
A `none` result models the probe raising an exception (caught by the
source's `try/except` blocks). -/
structure FileSystem where
  globResult : Str → Option (List Str)
  listdir : Option (List Str)
  isdir : Str → Bool
  isfile : Str → Bool

/-- A filesystem oracle on which every probe fails. -/
def noFs : FileSystem :=
  { globResult := fun _ => none, listdir := none
    isdir := fun _ => false, isfile := fun _ => false }

/-- `ParameterDetector._get_file_type`. -/
def getFileType (ext : Str) : Str :=
  let e := lowerStr ext
  if [".mp4", ".avi", ".mkv", ".mov", ".wmv", ".flv", ".webm", ".m4v"].any
      (fun x => str x == e) then str "video"
  else if [".mp3", ".wav", ".flac", ".aac", ".ogg", ".m4a"].any
      (fun x => str x == e) then str "audio"
  else if [".jpg", ".jpeg", ".png", ".gif", ".bmp", ".svg", ".webp"].any
      (fun x => str x == e) then str "image"
  else if [".txt", ".md", ".doc", ".docx", ".pdf", ".rtf"].any
      (fun x => str x == e) then str "document"
  else if [".csv", ".json", ".xml", ".yaml", ".yml"].any
      (fun x => str x == e) then str "data"
  else if [".py", ".js", ".html", ".css", ".cpp", ".java", ".go"].any
      (fun x => str x == e) then str "code"
  else if [".tar", ".zip", ".gz", ".bz2", ".xz", ".7z"].any
      (fun x => str x == e) then str "archive"
  else str "file"

/-- `ParameterDetector._get_file_suggestions`: same-extension files from a
`glob` probe plus canned variations; an exception leaves the list empty. -/
def fileSuggestions (fs : FileSystem) (filename : Str) : List Str :=
  let ext := pathSuffix filename
  match fs.globResult (str "*" ++ ext) with
  | none => distinctList []
  | some ms =>
    let sugg := ms.take 5
    let sugg :=
      if [".mp4", ".avi", ".mkv"].any (fun x => str x == lowerStr ext) then
        sugg ++ [str "input.mp4", str "output.mp4", str "video.mp4"]
      else if [".txt", ".md"].any (fun x => str x == lowerStr ext) then
        sugg ++ [str "README.md", str "input.txt", str "output.txt"]
      else sugg
    distinctList sugg

/-- `ParameterDetector._get_placeholder_suggestions` (pure). -/
def placeholderSuggestions (placeholder : Str) : List Str :=
  let lo := lowerStr placeholder
  if [str "input", str "source", str "src"].any (containsSubStr lo) then
    [str "input.txt", str "source.mp4", str "data.csv"]
  else if [str "output", str "dest", str "destination"].any (containsSubStr lo) then
    [str "output.txt", str "result.mp4", str "processed.csv"]
  else if containsSubStr lo (str "file") then
    [str "file.txt", str "document.pdf", str "data.json"]
  else if [str "dir", str "directory", str "path"].any (containsSubStr lo) then
    [str "./", str "../", str "/tmp/", str "./output/"]
  else []

/-- `ParameterDetector._get_path_suggestions`: directory or file listings
from an `os.listdir` probe; an exception leaves the list empty. -/
def pathSuggestions (fs : FileSystem) (path_value : Str) : List Str :=
  match fs.listdir with
  | none => []
  | some entries =>
    if endsWithStr path_value (str "/") ||
        containsSubStr (lowerStr path_value) (str "dir") then
      (entries.filter fs.isdir).take 5 ++ [str "./", str "../", str "/tmp/"]
    else
      (entries.filter fs.isfile).take 5

/-- `ParameterDetector._suggest_for_option`. -/
def suggestForOption (fs : FileSystem) (name current_value : Str) : List Str :=
  let lo := lowerStr name
  let sugg :=
    if containsSubStr lo (str "input") then fileSuggestions fs current_value
    else if containsSubStr lo (str "output") then fileSuggestions fs current_value
    else if lo == str "frame" then [str "1", str "10", str "100", current_value]
    else if containsSubStr lo (str "time") || containsSubStr lo (str "start") ||
        containsSubStr lo (str "end") then
      [str "00:00:01", str "00:00:10", str "00:01:00"]
    else if lo == str "fps" || lo == str "rate" then [str "24", str "30", str "60"]
    else if lo == str "width" || lo == str "height" then
      [str "640", str "720", str "1080"]
    else if lo == str "size" then [str "1280x720", str "1920x1080"]
    else []
  distinctList sugg

/-- `Parameter` dataclass from `src/parameters.py`. -/
structure Parameter where
  name : Str
  original_value : Str
  start_pos : Nat
  end_pos : Nat
  param_type : Str
  suggestions : List Str
  description : Str
deriving Repr, DecidableEq

/-- The overlap test of `_deduplicate_parameters`:
`param.start_pos < existing.end_pos and param.end_pos > existing.start_pos`. -/
def pyOverlapB (p e : Parameter) : Bool :=
  p.start_pos < e.end_pos && p.end_pos > e.start_pos

/-- The specificity table `{'file': 3, 'placeholder': 2, 'path': 1}` with
`dict.get(t, 0)` defaulting. -/
def specificity (t : Str) : Nat :=
  if t = str "file" then 3
  else if t = str "placeholder" then 2
  else if t = str "path" then 1
  else 0

/-- Stable insertion into a list sorted by `start_pos` (ties keep the
earlier element first, as Python's stable `sorted` does). -/
def insertByStart (p : Parameter) : List Parameter → List Parameter
  | [] => [p]
  | q :: qs =>
    if p.start_pos ≤ q.start_pos then p :: q :: qs else q :: insertByStart p qs

/-- `sorted(parameters, key=lambda p: p.start_pos)` (stable). -/
def sortByStart : List Parameter → List Parameter
  | [] => []
  | p :: ps => insertByStart p (sortByStart ps)

/-- One iteration of the `_deduplicate_parameters` sweep: scan `result` for
the first overlapping accepted parameter; keep the more specific one
(`result.remove(existing); result.append(param)` on a strict win, drop
`param` otherwise); append when nothing overlaps. -/
def dedupStep (acc : List Parameter) (p : Parameter) : List Parameter :=
  match acc.find? (fun e => pyOverlapB p e) with
  | none => acc ++ [p]
  | some e =>
    if specificity p.param_type > specificity e.param_type then
      acc.erase e ++ [p]
    else acc

/-- `ParameterDetector._deduplicate_parameters`. -/
def dedupParameters (ps : List Parameter) : List Parameter :=
  (sortByStart ps).foldl dedupStep []

/-- The sparse edit map `new_values : dict[int, str]`, as an association
list with unique keys. -/
abbrev EditMap := List (Nat × Str)

/-- Keys of the edit map. -/
def keysOf (m : EditMap) : List Nat := m.map Prod.fst

/-- Dictionary lookup `m.get(k)`. -/
def lookupEdit (m : EditMap) (k : Nat) : Option Str :=
  (m.find? (fun e => e.1 == k)).map Prod.snd

/-- Dictionary update `m[k] = v`. -/
def setEdit : EditMap → Nat → Str → EditMap
  | [], k, v => [(k, v)]
  | (k', v') :: rest, k, v =>
    if k' == k then (k, v) :: rest else (k', v') :: setEdit rest k v

/-- Dictionary deletion `del m[k]`. -/
def delEdit : EditMap → Nat → EditMap
  | [], _ => []
  | (k', v') :: rest, k =>
    if k' == k then rest else (k', v') :: delEdit rest k

/-- Descending insertion (stable). -/
def insertDescNat (x : Nat) : List Nat → List Nat
  | [] => [x]
  | y :: ys => if x ≥ y then x :: y :: ys else y :: insertDescNat x ys

/-- `sorted(keys, reverse=True)`. -/
def sortDescNat (xs : List Nat) : List Nat := xs.foldr insertDescNat []

/-- Replacement of one edited span:
`modified[:param.start_pos] + new_value + modified[param.end_pos:]`.
A key without a matching parameter or edit entry is left as a no-op (the
Python code would raise; the theorems below assume well-formed inputs). -/
def applyStep (params : List Parameter) (changes : EditMap) (acc : Str)
    (i : Nat) : Str :=
  match params[i]?, lookupEdit changes i with
  | some p, some v => acc.take p.start_pos ++ v ++ acc.drop p.end_pos
  | _, _ => acc

/-- `ParameterCustomizer._apply_parameter_changes`: replace each edited span
in descending key order. -/
def applyParameterChanges (cmd : Str) (params : List Parameter)
    (changes : EditMap) : Str :=
  (sortDescNat (keysOf changes)).foldl (applyStep params changes) cmd

/-- Normalize a Python slice index: negative indices count from the end,
positive ones clamp to the length. -/
def pyIdx (n : Nat) (i : Int) : Nat :=
  if i < 0 then (n + i).toNat else min i.toNat n

/-- Python slice `s[a:b]` for arbitrary integer bounds. -/
def pySlice (s : Str) (a b : Int) : Str :=
  sliceN s (pyIdx s.length a) (pyIdx s.length b)

/-- Python slice `s[a:]`. -/
def pySliceFrom (s : Str) (a : Int) : Str := s.drop (pyIdx s.length a)

/-- `new_values.get(idx, parameters[idx].original_value)`. -/
def effValue (params : List Parameter) (changes : EditMap) (i : Nat) : Str :=
  (lookupEdit changes i).getD ((params[i]?).elim [] Parameter.original_value)

/-- `parameters[i].start_pos` (indices in range throughout the engine). -/
def startOf (params : List Parameter) (i : Nat) : Nat :=
  (params[i]?).elim 0 Parameter.start_pos

/-- `len(parameters[i].original_value)`. -/
def origLen (params : List Parameter) (i : Nat) : Nat :=
  (params[i]?).elim 0 (fun p => p.original_value.length)

/-- Stable insertion of an index by the `start_pos` key. -/
def insertIdxByStart (params : List Parameter) (i : Nat) :
    List Nat → List Nat
  | [] => [i]
  | j :: js =>
    if startOf params i ≤ startOf params j then i :: j :: js
    else j :: insertIdxByStart params i js

/-- `sorted(range(len(parameters)), key=lambda i: parameters[i].start_pos)`. -/
def argsortByStart (params : List Parameter) : List Nat :=
  (List.range params.length).foldr (insertIdxByStart params) []

/-- The cumulative-offset loop of `_build_live_command`: walk the sorted
indices, stop at the first `prev_idx >= idx` (the `break`), and add the
length delta of every earlier parameter with a smaller `start_pos`. -/
def offsetLoop (params : List Parameter) (changes : EditMap) (idx : Nat)
    (acc : Int) : List Nat → Int
  | [] => acc
  | j :: js =>
    if idx ≤ j then acc
    else
      offsetLoop params changes idx
        (if startOf params j < startOf params idx then
          acc + ((effValue params changes j).length : Int) -
            (origLen params j : Int)
        else acc) js

/-- The offset of parameter `idx` inside the modified command. -/
def offsetFor (params : List Parameter) (changes : EditMap) (idx : Nat) : Int :=
  offsetLoop params changes idx 0 (argsortByStart params)

/-- One entry of `working_params`: `(idx, current_value, actual_start,
actual_end)`. -/
structure WorkItem where
  idx : Nat
  value : Str
  wstart : Int
  wend : Int
deriving Repr, DecidableEq

/-- `working_params` before the final sort. -/
def workingParams (params : List Parameter) (changes : EditMap) :
    List WorkItem :=
  (argsortByStart params).map fun idx =>
    let v := effValue params changes idx
    let s : Int := (startOf params idx : Int) + offsetFor params changes idx
    ⟨idx, v, s, s + v.length⟩

/-- Stable insertion of a work item by its `actual_start` key. -/
def insertWork (w : WorkItem) : List WorkItem → List WorkItem
  | [] => [w]
  | x :: xs => if w.wstart ≤ x.wstart then w :: x :: xs else x :: insertWork w xs

/-- `working_params.sort(key=lambda x: x[2])` (stable). -/
def sortWorking : List WorkItem → List WorkItem
  | [] => []
  | w :: ws => insertWork w (sortWorking ws)

/-- One step of the rendering fold: append the gap before the item (when it
is non-empty) and then the item's effective value. -/
def renderPiece (cc : Str) (st : Str × Int) (w : WorkItem) : Str × Int :=
  let acc := if w.wstart > st.2 then st.1 ++ pySlice cc st.2 w.wstart else st.1
  (acc ++ w.value, w.wend)

/-- The plain text of the `rich.text.Text` built by
`ParameterCustomizer._build_live_command` (styles carry no characters, and
both style branches append the same string, so the selected index does not
influence the text). -/
def buildLiveDisplay (cmd : Str) (params : List Parameter)
    (changes : EditMap) : Str :=
  let cc := if changes.isEmpty then cmd else applyParameterChanges cmd params changes
  let working := sortWorking (workingParams params changes)
  let st := working.foldl (renderPiece cc) ([], 0)
  if st.2 < (cc.length : Int) then st.1 ++ pySliceFrom cc st.2 else st.1

/-- The discrete input events consumed by one iteration of the
`_navigate_parameters` loop, after `_get_key` has classified the raw bytes:
`quit` is `'q'`/`Esc`/`Ctrl+C`, `tab`/`shiftTab` are `'\t'`/`'\x1b[Z'`,
`enter` is `'\r'`, `copyKey` is `'c'`, `pasteV` is `'v'` together with the
clipboard oracle's answer, `bracketPaste` is a `('__PASTE__', text)` tuple,
`charKey` is a printable character together with the value subsequently
returned by `_edit_parameter_value` (`none` models `EOFError` /
`KeyboardInterrupt` inside the editor), and `other` is any other escape
sequence, which falls through every branch. -/
inductive KeyEvent where
  | quit
  | tab
  | shiftTab
  | enter
  | copyKey
  | pasteV (clip : Option Str)
  | bracketPaste (text : Str)
  | charKey (editResult : Option Str)
  | other
deriving Repr, DecidableEq

/-- The loop-local state of `_navigate_parameters`:
`selected_param_index` and `new_values`. -/
structure NavState where
  selected : Nat
  edits : EditMap
deriving Repr, DecidableEq

/-- How a run of the `_navigate_parameters` loop ends: `cancelled` is
`return None`, `executed` is the `break` on Enter followed by the final
`return`, `processExit` is the `sys.exit(0)` reached from the `'c'` branch
(after copying the shown command), and `pending` means the supplied key
events were exhausted while the loop would block for more input. -/
inductive NavResult where
  | cancelled
  | executed (cmd : Str)
  | processExit (cmd : Str)
  | pending (st : NavState)
deriving Repr, DecidableEq

/-- The state update performed by one non-terminating iteration of the
`_navigate_parameters` loop. -/
def navUpdate (params : List Parameter) (st : NavState) :
    KeyEvent → NavState
  | .tab => { st with selected := (st.selected + 1) % params.length }
  | .shiftTab =>
    -- Python's `(i - 1) % n` on the in-range `i` kept by the loop.
    { st with selected := (st.selected + params.length - 1) % params.length }
  | .pasteV clip =>
    match clip with
    | some s =>
      if s.isEmpty then st
      else { st with edits := setEdit st.edits st.selected (pyStrip s) }
    | none => st
  | .bracketPaste t =>
    if t.isEmpty then st
    else { st with edits := setEdit st.edits st.selected t }
  | .charKey res =>
    match res, params[st.selected]? with
    | some v, some p =>
      if v ≠ p.original_value then
        { st with edits := setEdit st.edits st.selected v }
      else if (lookupEdit st.edits st.selected).isSome then
        { st with edits := delEdit st.edits st.selected }
      else st
    | _, _ => st
  | _ => st

/-- The final command shown/returned by the loop:
`_apply_parameter_changes(...) if new_values else command`. -/
def finalCommand (cmd : Str) (params : List Parameter) (st : NavState) : Str :=
  if st.edits.isEmpty then cmd else applyParameterChanges cmd params st.edits

/-- `ParameterCustomizer._navigate_parameters`, driven by a finite list of
key events. -/
def navigateRun (cmd : Str) (params : List Parameter) (st : NavState) :
    List KeyEvent → NavResult
  | [] => .pending st
  | k :: ks =>
    match k with
    | .quit => .cancelled
    | .enter => .executed (finalCommand cmd params st)
    | .copyKey => .processExit (finalCommand cmd params st)
    | e => navigateRun cmd params (navUpdate params st e) ks

/-- Is the character at offset `j` equal to `c`? -/
def chAt (s : Str) (j : Nat) (c : Char) : Bool :=
  (s[j]?).elim false (fun d => d == c)

/-- Is the character at offset `j` a regex word character? -/
def wordAt (s : Str) (j : Nat) : Bool := (s[j]?).elim false isWordChar

/-- Regex word boundary `\b` before offset `i`. -/
def atBoundary (s : Str) (i : Nat) : Bool :=
  match i with
  | 0 => wordAt s 0
  | j + 1 => wordAt s j != wordAt s (j + 1)

/-- Do the characters starting at offset `i` spell out the (lower-case)
word `w`, compared case-insensitively (`re.IGNORECASE`)? -/
def charsMatchCI (s : Str) (i : Nat) (w : Str) : Bool :=
  startsWithStr (lowerStr (s.drop i)) w

/-- The seven extension groups of `_find_file_parameters`, in source
order. -/
def extGroups : List (List Str) :=
  [[str "mp4", str "avi", str "mkv", str "mov", str "wmv", str "flv",
    str "webm", str "m4v"],
   [str "mp3", str "wav", str "flac", str "aac", str "ogg", str "m4a"],
   [str "jpg", str "jpeg", str "png", str "gif", str "bmp", str "svg",
    str "webp"],
   [str "txt", str "md", str "doc", str "docx", str "pdf", str "rtf"],
   [str "csv", str "json", str "xml", str "yaml", str "yml"],
   [str "py", str "js", str "html", str "css", str "cpp", str "java",
    str "go"],
   [str "tar", str "zip", str "gz", str "bz2", str "xz", str "7z"]]

/-- Build the `file` parameter for the span `[s, e)`. -/
def mkFileParam (cmd : Str) (fs : FileSystem) (s e : Nat) : Parameter :=
  let filename := sliceN cmd s e
  let ext := lowerStr (pathSuffix filename)
  { name := str "File (" ++ ext ++ str ")"
    original_value := filename
    start_pos := s
    end_pos := e
    param_type := str "file"
    suggestions := fileSuggestions fs filename
    description := pyTitle (getFileType ext) ++ str " file (" ++ ext ++ str ")" }

/-- Does the quoted-pattern inner run `[^"'\s]+\.{ext_group}` succeed on
`run` — i.e. does `run` end (case-insensitively) in a dot followed by one
of the group's extensions, with a non-empty stem? -/
def extSuffixOk (exts : List Str) (run : Str) : Bool :=
  exts.any fun e =>
    endsWithStr (lowerStr run) ('.' :: e) && run.length > e.length + 1

/-- Scanner for the quoted file pattern
`["']([^"'\s]+\.{ext_group})["']`: at each quote character, the inner
content is the maximal run of non-quote non-whitespace characters (the
greedy `+` must end exactly where a quote follows, because the class
excludes quotes), and the span is the inner content only.  `re.finditer`
resumes after the full match on success, one character further on
failure. -/
def scanQuoted (cmd : Str) (exts : List Str) (fs : FileSystem) :
    Nat → Nat → List Parameter → List Parameter
  | 0, _, acc => acc
  | fuel + 1, i, acc =>
    match cmd[i]? with
    | none => acc
    | some c =>
      if isQuote c then
        let r := runLen (fun d => !(isQuote d || isWs d)) (cmd.drop (i + 1))
        let run := sliceN cmd (i + 1) (i + 1 + r)
        if r > 0 && extSuffixOk exts run &&
            (cmd[i + 1 + r]?).elim false isQuote then
          scanQuoted cmd exts fs fuel (i + 1 + r + 1)
            (acc ++ [mkFileParam cmd fs (i + 1) (i + 1 + r)])
        else scanQuoted cmd exts fs fuel (i + 1) acc
      else scanQuoted cmd exts fs fuel (i + 1) acc

/-- End-of-match constraints of the unquoted file pattern: the trailing
`\b` (the last extension character is a word character, so the next one
must not be) and the look-ahead `(?!["'])`. -/
def unqEndOk (cmd : Str) (e : Nat) : Bool :=
  (cmd[e]?).elim true fun c => !isWordChar c && !isQuote c

/-- At a fixed dot position `d`, try the extension alternatives in group
order (the backtracking order of `\.(e1|e2|...)`). -/
def extEndAt (cmd : Str) (d : Nat) : List Str → Option Nat
  | [] => none
  | e :: es =>
    if charsMatchCI cmd (d + 1) e && unqEndOk cmd (d + 1 + e.length) then
      some (d + 1 + e.length)
    else extEndAt cmd d es

/-- The greedy `[^\s"']+` prefers the longest stem, i.e. the right-most
dot inside the run that is followed by a matching extension satisfying the
end constraints; `k` counts dot-offset candidates down from the end of the
run. -/
def findBestDot (cmd : Str) (exts : List Str) (i : Nat) : Nat → Option Nat
  | 0 => none
  | k + 1 =>
    let d := i + k + 1
    if chAt cmd d '.' then
      match extEndAt cmd d exts with
      | some en => some en
      | none => findBestDot cmd exts i k
    else findBestDot cmd exts i k

/-- Scanner for the unquoted file pattern
`(?<!["'])\b([^\s"']+\.{ext_group})\b(?!["'])`, including the source's
extra overlap check against all previously found parameters. -/
def scanUnquoted (cmd : Str) (exts : List Str) (fs : FileSystem) :
    Nat → Nat → List Parameter → List Parameter
  | 0, _, acc => acc
  | fuel + 1, i, acc =>
    match cmd[i]? with
    | none => acc
    | some c =>
      let behindOk :=
        match i with
        | 0 => true
        | j + 1 => (cmd[j]?).elim true fun pc => !isQuote pc
      if behindOk && atBoundary cmd i && !(isWs c || isQuote c) then
        let r := runLen (fun d => !(isQuote d || isWs d)) (cmd.drop i)
        match findBestDot cmd exts i (r - 1) with
        | some en =>
          let overlaps := acc.any fun q =>
            decide (q.start_pos < en ∧ i < q.end_pos)
          scanUnquoted cmd exts fs fuel en
            (if overlaps then acc else acc ++ [mkFileParam cmd fs i en])
        | none => scanUnquoted cmd exts fs fuel (i + 1) acc
      else scanUnquoted cmd exts fs fuel (i + 1) acc

/-- `ParameterDetector._find_file_parameters`: for each extension group,
quoted matches first, then unquoted matches (which skip spans overlapping
anything already found, across all groups). -/
def findFileParameters (cmd : Str) (fs : FileSystem) : List Parameter :=
  extGroups.foldl
    (fun acc exts =>
      scanUnquoted cmd exts fs (cmd.length + 1) 0
        (scanQuoted cmd exts fs (cmd.length + 1) 0 acc))
    []

/-- Build a `placeholder` parameter for the span `[s, e)`: the name strips
the delimiter characters `{}<>[]$`, turns underscores into spaces and
title-cases the result. -/
def mkPlaceholderParam (cmd : Str) (s e : Nat) : Parameter :=
  let placeholder := sliceN cmd s e
  let name := pyTitle
    ((placeholder.filter fun c =>
        !(c == '{' || c == '}' || c == '<' || c == '>' || c == '[' ||
          c == ']' || c == '$')).map
      fun c => if c == '_' then ' ' else c)
  { name := name
    original_value := placeholder
    start_pos := s
    end_pos := e
    param_type := str "placeholder"
    suggestions := placeholderSuggestions placeholder
    description := str "Parameter: " ++ name }

/-- Scanner for a delimited placeholder pattern such as `\{[^}]+\}`: the
inner `+` is a maximal run of non-closing characters, and the span covers
the delimiters. -/
def scanDelimPH (cmd : Str) (op cl : Char) : Nat → Nat → List Parameter
  | 0, _ => []
  | fuel + 1, i =>
    match cmd[i]? with
    | none => []
    | some c =>
      if c == op then
        let r := runLen (fun d => !(d == cl)) (cmd.drop (i + 1))
        if r > 0 && chAt cmd (i + 1 + r) cl then
          mkPlaceholderParam cmd i (i + 1 + r + 1) ::
            scanDelimPH cmd op cl fuel (i + 1 + r + 1)
        else scanDelimPH cmd op cl fuel (i + 1)
      else scanDelimPH cmd op cl fuel (i + 1)

/-- Scanner for the `\$\w+` placeholder pattern. -/
def scanDollarPH (cmd : Str) : Nat → Nat → List Parameter
  | 0, _ => []
  | fuel + 1, i =>
    match cmd[i]? with
    | none => []
    | some c =>
      if c == '$' then
        let r := runLen isWordChar (cmd.drop (i + 1))
        if r > 0 then
          mkPlaceholderParam cmd i (i + 1 + r) ::
            scanDollarPH cmd fuel (i + 1 + r)
        else scanDollarPH cmd fuel (i + 1)
      else scanDollarPH cmd fuel (i + 1)

/-- `ParameterDetector._find_placeholder_parameters`: the four placeholder
patterns in source order. -/
def findPlaceholderParameters (cmd : Str) : List Parameter :=
  scanDelimPH cmd '{' '}' (cmd.length + 1) 0 ++
  scanDelimPH cmd '<' '>' (cmd.length + 1) 0 ++
  scanDelimPH cmd '[' ']' (cmd.length + 1) 0 ++
  scanDollarPH cmd (cmd.length + 1) 0

/-- The keyword alternation of `_find_path_parameters`, in source order. -/
def pathKeywords : List Str :=
  [str "input", str "output", str "src", str "dest", str "source",
   str "destination", str "file", str "path", str "dir", str "directory"]

/-- Try the keyword alternatives at position `i` (backtracking order of
`\b(kw1|kw2|...)\b\s+([^\s]+)` after the leading `\b` holds): each
alternative needs the keyword characters (case-insensitive), a word
boundary after them, at least one whitespace character and a non-empty
non-whitespace token.  Returns the matched keyword text and the token
span. -/
def tryPathAt (cmd : Str) (i : Nat) : List Str → Option (Str × Nat × Nat)
  | [] => none
  | kw :: kws =>
    let ke := i + kw.length
    if charsMatchCI cmd i kw && atBoundary cmd ke then
      let w := runLen isWs (cmd.drop ke)
      let t := runLen (fun c => !isWs c) (cmd.drop (ke + w))
      if w > 0 && t > 0 then some (sliceN cmd i ke, ke + w, ke + w + t)
      else tryPathAt cmd i kws
    else tryPathAt cmd i kws

/-- Build a `path` parameter for the keyword text `kw` and token span
`[ts, te)`. -/
def mkPathParam (cmd : Str) (fs : FileSystem) (kw : Str) (ts te : Nat) :
    Parameter :=
  let value := sliceN cmd ts te
  { name := pyTitle kw
    original_value := value
    start_pos := ts
    end_pos := te
    param_type := str "path"
    suggestions := pathSuggestions fs value
    description := pyTitle kw ++ str " path" }

/-- Scanner for the path pattern, including the source's skip of tokens
that look like already-matched file extensions (`'.mp4'/'.txt'/'.jpg'`
substring test) — a skipped match is still consumed by `finditer`. -/
def scanPath (cmd : Str) (fs : FileSystem) : Nat → Nat → List Parameter
  | 0, _ => []
  | fuel + 1, i =>
    match cmd[i]? with
    | none => []
    | some _ =>
      if atBoundary cmd i then
        match tryPathAt cmd i pathKeywords with
        | some (kw, ts, te) =>
          let value := sliceN cmd ts te
          let skip := [str ".mp4", str ".txt", str ".jpg"].any
            (containsSubStr (lowerStr value))
          (if skip then [] else [mkPathParam cmd fs kw ts te]) ++
            scanPath cmd fs fuel te
        | none => scanPath cmd fs fuel (i + 1)
      else scanPath cmd fs fuel (i + 1)

/-- `ParameterDetector._find_path_parameters`. -/
def findPathParameters (cmd : Str) (fs : FileSystem) : List Parameter :=
  scanPath cmd fs (cmd.length + 1) 0

/-- The `option_flags` table, in source (dict-insertion) order. -/
def optionFlags : List (Str × Str) :=
  [(str "-i", str "Input"), (str "--input", str "Input"),
   (str "--in", str "Input"),
   (str "-o", str "Output"), (str "--output", str "Output"),
   (str "--out", str "Output"),
   (str "--frame", str "Frame"), (str "--frame-number", str "Frame"),
   (str "-n", str "Frame"),
   (str "--time", str "Time"), (str "-ss", str "Start Time"),
   (str "-to", str "End Time"),
   (str "--fps", str "FPS"), (str "--rate", str "FPS"),
   (str "--width", str "Width"), (str "--height", str "Height"),
   (str "-s", str "Size")]

/-- Stable insertion by descending length. -/
def insertFlagDesc (f : Str) : List Str → List Str
  | [] => [f]
  | g :: gs =>
    if f.length ≥ g.length then f :: g :: gs else g :: insertFlagDesc f gs

/-- `sorted(self.option_flags.keys(), key=len, reverse=True)` — the
alternation order of the flag regex. -/
def flagAlternatives : List Str :=
  (optionFlags.map Prod.fst).foldr insertFlagDesc []

/-- The value alternation `"[^"]+"|'[^']+'|[^\s]+` at position `v`
(branches tried in order; a quoted branch keeps the quotes in the value
group).  Returns the end of the value. -/
def matchOptValue (cmd : Str) (v : Nat) : Option Nat :=
  let quoted := fun (q : Char) =>
    if chAt cmd v q then
      let r := runLen (fun c => !(c == q)) (cmd.drop (v + 1))
      if r > 0 && chAt cmd (v + 1 + r) q then some (v + 1 + r + 1) else none
    else none
  match quoted '"' with
  | some e => some e
  | none =>
    match quoted '\'' with
    | some e => some e
    | none =>
      let r := runLen (fun c => !isWs c) (cmd.drop v)
      if r > 0 then some (v + r) else none

/-- Try the flag alternatives for `(flag)=(value)` at position `i`
(case-sensitive, no word boundaries — exactly the compiled pattern). -/
def tryFlagEqAt (cmd : Str) (i : Nat) : List Str → Option (Str × Nat × Nat)
  | [] => none
  | f :: rest =>
    if startsWithStr (cmd.drop i) f && chAt cmd (i + f.length) '=' then
      match matchOptValue cmd (i + f.length + 1) with
      | some e => some (f, i + f.length + 1, e)
      | none => tryFlagEqAt cmd i rest
    else tryFlagEqAt cmd i rest

/-- Try the flag alternatives for `(flag)\s+(value)` at position `i`. -/
def tryFlagSpAt (cmd : Str) (i : Nat) : List Str → Option (Str × Nat × Nat)
  | [] => none
  | f :: rest =>
    if startsWithStr (cmd.drop i) f then
      let w := runLen isWs (cmd.drop (i + f.length))
      if w > 0 then
        match matchOptValue cmd (i + f.length + w) with
        | some e => some (f, i + f.length + w, e)
        | none => tryFlagSpAt cmd i rest
      else tryFlagSpAt cmd i rest
    else tryFlagSpAt cmd i rest

/-- Build an `option` parameter from a flag match with value span
`[vs, ve)`; the display name comes from the `option_flags` table (the
`lstrip('-').replace('-',' ').title()` fallback is kept for fidelity). -/
def mkOptionParam (cmd : Str) (fs : FileSystem) (flag : Str) (vs ve : Nat) :
    Parameter :=
  let name := ((optionFlags.find? fun e => e.1 == flag).map Prod.snd).getD
    (pyTitle ((flag.dropWhile fun c => c == '-').map
      fun c => if c == '-' then ' ' else c))
  let value := sliceN cmd vs ve
  { name := name
    original_value := value
    start_pos := vs
    end_pos := ve
    param_type := str "option"
    suggestions := suggestForOption fs name value
    description := name ++ str " option" }

/-- Scanner for `pattern_eq` (`flag=value`). -/
def scanOptEq (cmd : Str) (fs : FileSystem) : Nat → Nat → List Parameter
  | 0, _ => []
  | fuel + 1, i =>
    match cmd[i]? with
    | none => []
    | some _ =>
      match tryFlagEqAt cmd i flagAlternatives with
      | some (f, vs, ve) =>
        mkOptionParam cmd fs f vs ve :: scanOptEq cmd fs fuel ve
      | none => scanOptEq cmd fs fuel (i + 1)

/-- Scanner for `pattern_sp` (`flag value`). -/
def scanOptSp (cmd : Str) (fs : FileSystem) : Nat → Nat → List Parameter
  | 0, _ => []
  | fuel + 1, i =>
    match cmd[i]? with
    | none => []
    | some _ =>
      match tryFlagSpAt cmd i flagAlternatives with
      | some (f, vs, ve) =>
        mkOptionParam cmd fs f vs ve :: scanOptSp cmd fs fuel ve
      | none => scanOptSp cmd fs fuel (i + 1)

/-- `ParameterDetector._find_option_parameters`: all `flag=value` matches,
then all `flag value` matches. -/
def findOptionParameters (cmd : Str) (fs : FileSystem) : List Parameter :=
  scanOptEq cmd fs (cmd.length + 1) 0 ++ scanOptSp cmd fs (cmd.length + 1) 0

/-- Is the character at offset `j` an ASCII digit? -/
def digitAt (cmd : Str) (j : Nat) : Bool := (cmd[j]?).elim false Char.isDigit

/-- Match `\b\d{1,2}:\d{2}:\d{2}(?:\.\d+)?\b` at position `i`, with the
greedy preferences of the Python engine (two leading digits before one,
fractional part taken when the trailing boundary allows it, dropped
otherwise — a shorter digit run never helps, and the dot itself restores
the boundary).  Returns the end of the match. -/
def matchTimeAt (cmd : Str) (i : Nat) : Option Nat :=
  if atBoundary cmd i then
    let rest := fun (p : Nat) =>
      if chAt cmd p ':' && digitAt cmd (p + 1) && digitAt cmd (p + 2) &&
          chAt cmd (p + 3) ':' && digitAt cmd (p + 4) && digitAt cmd (p + 5)
      then
        let q := p + 6
        if chAt cmd q '.' && runLen Char.isDigit (cmd.drop (q + 1)) > 0 then
          let e := q + 1 + runLen Char.isDigit (cmd.drop (q + 1))
          if (cmd[e]?).elim true (fun c => !isWordChar c) then some e
          else some q
        else if (cmd[q]?).elim true (fun c => !isWordChar c) then some q
        else none
      else none
    if digitAt cmd i && digitAt cmd (i + 1) then
      match rest (i + 2) with
      | some e => some e
      | none => rest (i + 1)
    else if digitAt cmd i then rest (i + 1)
    else none
  else none

/-- Scanner for the timecode pattern. -/
def scanTime (cmd : Str) : Nat → Nat → List Parameter
  | 0, _ => []
  | fuel + 1, i =>
    match cmd[i]? with
    | none => []
    | some _ =>
      match matchTimeAt cmd i with
      | some e =>
        { name := str "Time"
          original_value := sliceN cmd i e
          start_pos := i
          end_pos := e
          param_type := str "option"
          suggestions := [str "00:00:01", str "00:00:10", str "00:01:00"]
          description := str "Time position" } :: scanTime cmd fuel e
      | none => scanTime cmd fuel (i + 1)

/-- Match `(?:\bframe\b\s*[=:]?\s*(\d+))|(?:\bn\s*=\s*(\d+))` at position
`i` (case-insensitive).  Returns `(matchEnd, digitsStart, digitsEnd)`. -/
def matchFrameAt (cmd : Str) (i : Nat) : Option (Nat × Nat × Nat) :=
  let digits := fun (p : Nat) =>
    let dr := runLen Char.isDigit (cmd.drop p)
    if dr > 0 then some (p + dr, p, p + dr) else none
  let branch1 :=
    if atBoundary cmd i && charsMatchCI cmd i (str "frame") &&
        atBoundary cmd (i + 5) then
      let p1 := i + 5 + runLen isWs (cmd.drop (i + 5))
      let p2 := if chAt cmd p1 '=' || chAt cmd p1 ':' then p1 + 1 else p1
      digits (p2 + runLen isWs (cmd.drop p2))
    else none
  match branch1 with
  | some r => some r
  | none =>
    if atBoundary cmd i && charsMatchCI cmd i (str "n") then
      let p1 := i + 1 + runLen isWs (cmd.drop (i + 1))
      if chAt cmd p1 '=' then
        digits (p1 + 1 + runLen isWs (cmd.drop (p1 + 1)))
      else none
    else none

/-- Scanner for the frame-number pattern.  Note the source's span: the
value is the digit group only, but `start_pos`/`end_pos` cover the whole
match (`match.start()` to `match.start() + len(match.group(0))`). -/
def scanFrame (cmd : Str) : Nat → Nat → List Parameter
  | 0, _ => []
  | fuel + 1, i =>
    match cmd[i]? with
    | none => []
    | some _ =>
      match matchFrameAt cmd i with
      | some (e, ds, de) =>
        { name := str "Frame"
          original_value := sliceN cmd ds de
          start_pos := i
          end_pos := e
          param_type := str "option"
          suggestions := [str "1", str "10", str "100"]
          description := str "Frame number" } :: scanFrame cmd fuel e
      | none => scanFrame cmd fuel (i + 1)

/-- `ParameterDetector._find_time_and_numeric_parameters`. -/
def findTimeNumericParameters (cmd : Str) : List Parameter :=
  scanTime cmd (cmd.length + 1) 0 ++ scanFrame cmd (cmd.length + 1) 0

/-- `ParameterDetector.detect_parameters`: run the five strategies in
source order, deduplicate, and sort by position. -/
def detectParameters (cmd : Str) (fs : FileSystem) : List Parameter :=
  sortByStart (dedupParameters
    (findFileParameters cmd fs ++ findPlaceholderParameters cmd ++
     findPathParameters cmd fs ++ findOptionParameters cmd fs ++
     findTimeNumericParameters cmd))

/-- An externally supplied (LLM) parameter hint, as the dict consumed by
`ParameterCustomizer.customize_command`: every field may be absent.  Span
fields are 0-based offsets into the command being customized (§6 of the
spec); they are modelled as naturals. -/
structure ExternalHint where
  name : Option Str
  role : Option Str
  description : Option Str
  spanStart : Option Nat
  spanEnd : Option Nat
  suggestions : Option (List Str)
  original_value : Option Str
deriving Repr, DecidableEq

/-- Python `a or b` for an optional string `a` (both `None` and `''` fall
through to `b`). -/
def pyOrStr (a : Option Str) (b : Str) : Str :=
  match a with
  | some s => if s.isEmpty then b else s
  | none => b

/-- Convert one preset hint into a `Parameter`, exactly as
`customize_command` does: a valid in-range span takes `original_value`
from the command text, otherwise the hint's own `original_value` or
`name` is used (a hint with both absent would store Python `None`,
modelled as the empty string); missing span fields become position `0`. -/
def hintToParameter (cmd : Str) (h : ExternalHint) : Parameter :=
  let valid : Bool :=
    match h.spanStart, h.spanEnd with
    | some s, some e => decide (s < e ∧ e ≤ cmd.length)
    | _, _ => false
  { name := pyOrStr h.name (str "Parameter")
    original_value :=
      if valid then sliceN cmd (h.spanStart.getD 0) (h.spanEnd.getD 0)
      else pyOrStr h.original_value (pyOrStr h.name [])
    start_pos := h.spanStart.getD 0
    end_pos := h.spanEnd.getD 0
    param_type := str "option"
    suggestions := h.suggestions.getD []
    description := pyOrStr h.description (pyOrStr h.role (str "Parameter")) }

/-- The preset-merging section of `ParameterCustomizer.customize_command`:
append the converted hints to the detected parameters, deduplicate with
the same sweep, and re-sort.  (With no presets the guard
`if self.preset_parameters:` leaves the detected list untouched.) -/
def mergePresetParameters (cmd : Str) (detected : List Parameter)
    (presets : List ExternalHint) : List Parameter :=
  if presets.isEmpty then detected
  else
    sortByStart (dedupParameters (detected ++ presets.map (hintToParameter cmd)))

/-! ### Shared lemmas -/

set_option maxRecDepth 10000

theorem lookupEdit_setEdit_self (m : EditMap) (k : Nat) (v : Str) :
    lookupEdit (setEdit m k v) k = some v := by
  induction m with
  | nil => simp [setEdit, lookupEdit]
  | cons kv rest ih =>
    obtain ⟨k', v'⟩ := kv
    by_cases h : k' = k
    · simp [setEdit, h, lookupEdit]
    · simpa [setEdit, h, lookupEdit, List.find?] using ih

theorem lookupEdit_eq_none_of_not_mem (m : EditMap) (k : Nat)
    (h : k ∉ keysOf m) : lookupEdit m k = none := by
  have hf : m.find? (fun e => e.1 == k) = none := by
    rw [List.find?_eq_none]
    intro x hx hbeq
    exact h (List.mem_map.mpr ⟨x, hx, by simpa using hbeq⟩)
  simp [lookupEdit, hf]

theorem lookupEdit_delEdit_self (m : EditMap) (k : Nat)
    (h : (keysOf m).Nodup) : lookupEdit (delEdit m k) k = none := by
  induction m with
  | nil => simp [delEdit, lookupEdit]
  | cons kv rest ih =>
    obtain ⟨k', v'⟩ := kv
    simp only [keysOf, List.map_cons, List.nodup_cons] at h
    by_cases hk : k' = k
    · simpa [delEdit, hk] using
        lookupEdit_eq_none_of_not_mem rest k (by simpa [keysOf, hk] using h.1)
    · simpa [delEdit, hk, lookupEdit, List.find?] using ih h.2

/-! ### Claim C9 -/

/-- Claim C9: applying an empty edit map reproduces the base command
unchanged, for every base and `ParameterSet`:
`apply(base, params, {}) == base`. -/
theorem apply_empty_editmap_id (cmd : Str) (params : List Parameter) :
    applyParameterChanges cmd params [] = cmd := rfl

/-! ### Claim C2 -/

/-- The failing input for claim C2. -/
def frameCmd : Str := str "frame=123"

/-- Claim C2 (code bug): the claim states that every detected parameter
satisfies `original_value == command[start_pos:end_pos)` and
`start_pos < end_pos <= len(command)`.  The frame-number branch of
`_find_time_and_numeric_parameters` violates it: on the command
`frame=123` the detector returns a parameter whose span `[0, 9)` covers
the whole `frame=123` match while `original_value` is only the digit
group `123`. -/
theorem frame_param_violates_substring_invariant :
    detectParameters frameCmd noFs =
      [⟨str "Frame", str "123", 0, 9, str "option",
        [str "1", str "10", str "100"], str "Frame number"⟩] ∧
    sliceN frameCmd 0 9 ≠ str "123" := by
  constructor
  · decide
  · decide

/-! ### Claim C5 -/

/-- The failing input for claim C5. -/
def mvCmd : Str := str "mv \"old name.txt\" new_name.txt"

/-- Claim C5 (code bug): the claim (and the spec's worked example) expect
two `file` parameters for `mv "old name.txt" new_name.txt` — the
inner-quoted `old name.txt` and the unquoted `new_name.txt`.  The quoted
file pattern's character class `[^"'\s]+` excludes whitespace, so the
quoted filename with a space never matches, and the unquoted pattern
rejects `name.txt` through its `(?!["'])` look-ahead; the detector
therefore returns exactly one parameter (`new_name.txt`). -/
theorem quoted_space_filename_detection :
    detectParameters mvCmd noFs =
      [⟨str "File (.txt)", str "new_name.txt", 18, 30, str "file", [],
        str "Document file (.txt)"⟩] := by
  decide

/-! ### Claim C4 -/

/-- Symmetry of the sweep's overlap test. -/
theorem pyOverlapB_comm (a b : Parameter) : pyOverlapB a b = pyOverlapB b a := by
  simp [pyOverlapB, Bool.and_comm]

/-- The overlapping `file` candidate of the priority-policy example
(span `[2, 10)`). -/
def priFile : Parameter :=
  ⟨str "File (.txt)", str "ile-span", 2, 10, str "file", [], str "file span"⟩

/-- The overlapping `path` candidate of the priority-policy example
(span `[3, 9)`). -/
def priPath : Parameter :=
  ⟨str "Input", str "le-spa", 3, 9, str "path", [], str "Input path"⟩

/-- Claim C4: when exactly two candidates overlap, deduplication keeps the
one with the higher specificity (`file=3, placeholder=2, path=1`, default
`0`) and drops the other; on a tie the earlier candidate of the
start-sorted sweep is kept (the `else` branch keeps `existing`).  In
particular a `file` candidate `[2,10)` overlapping a `path` candidate
`[3,9)` is retained and the `path` candidate dropped, in either input
order. -/
theorem dedup_priority_policy :
    (∀ a b : Parameter, a.start_pos ≤ b.start_pos → pyOverlapB a b = true →
      dedupParameters [a, b] =
        if specificity a.param_type < specificity b.param_type then [b]
        else [a]) ∧
    dedupParameters [priPath, priFile] = [priFile] ∧
    dedupParameters [priFile, priPath] = [priFile] := by
  refine ⟨fun a b hle hov => ?_, by decide, by decide⟩
  have hba : pyOverlapB b a = true := (pyOverlapB_comm b a).trans hov
  simp only [dedupParameters, sortByStart, insertByStart, if_pos hle]
  simp [dedupStep, List.find?, hba, List.erase_cons_head, Nat.lt_iff_add_one_le]

/-- Witness for claim C4's theorem at the concrete priority example. -/
theorem dedup_priority_policy_witness :
    priFile.start_pos ≤ priPath.start_pos ∧ pyOverlapB priFile priPath = true ∧
    dedupParameters [priFile, priPath] =
      (if specificity priFile.param_type < specificity priPath.param_type
       then [priPath] else [priFile]) :=
  ⟨by decide, by decide,
    dedup_priority_policy.1 priFile priPath (by decide) (by decide)⟩

/-! ### Claim C6 -/

/-- A one-parameter fixture for the session counterexamples. -/
def navParam : Parameter :=
  ⟨str "P", str "x", 0, 1, str "file", [], str "P"⟩

/-- Counterexample to claim C6 as stated: pasting text equal to
`original_value` stores an entry equal to the original (the paste branches
assign `new_values[selected] = text` unconditionally), so the edit map is
not kept minimal and paste is not equivalent to `commit_edit`. -/
theorem paste_equal_original_stored_cex :
    navigateRun (str "x") [navParam] ⟨0, []⟩ [.bracketPaste (str "x")] =
      .pending ⟨0, [(0, str "x")]⟩ ∧
    lookupEdit [(0, str "x")] 0 = some navParam.original_value := by
  constructor
  · decide
  · decide

/-- Claim C6 (amended): the typing/commit path does maintain minimality —
committing a value equal to `original_value` removes (or never creates)
the entry — but the paste paths (`'v'` and bracketed paste) assign the
entry unconditionally, so pasting a non-empty text always stores it, even
when it equals `original_value`. -/
theorem commit_minimal_paste_unconditional
    (params : List Parameter) (st : NavState) (v t : Str) (p : Parameter)
    (hp : params[st.selected]? = some p) (hnd : (keysOf st.edits).Nodup) :
    (lookupEdit (navUpdate params st (.charKey (some v))).edits st.selected =
      if v = p.original_value then none else some v) ∧
    (t ≠ [] →
      lookupEdit (navUpdate params st (.bracketPaste t)).edits st.selected =
        some t) := by
  constructor
  · by_cases hv : v = p.original_value
    · simp only [navUpdate, hp, hv, if_pos rfl, ne_eq, not_true_eq_false,
        if_false, ite_not]
      by_cases hs : (lookupEdit st.edits st.selected).isSome
      · simp [hs, lookupEdit_delEdit_self st.edits st.selected hnd]
      · simp only [hs, if_false]
        simpa using Option.not_isSome_iff_eq_none.mp (by simpa using hs)
    · simp [navUpdate, hp, hv, lookupEdit_setEdit_self]
  · intro ht
    simp [navUpdate, List.isEmpty_iff, ht, lookupEdit_setEdit_self]

/-- Witness for claim C6's amended theorem at a concrete session state. -/
theorem commit_minimal_paste_unconditional_witness :
    (lookupEdit (navUpdate [navParam] ⟨0, []⟩ (.charKey (some (str "y")))).edits 0 =
      if str "y" = navParam.original_value then none else some (str "y")) ∧
    (str "z" ≠ ([] : Str) →
      lookupEdit (navUpdate [navParam] ⟨0, []⟩ (.bracketPaste (str "z"))).edits 0 =
        some (str "z")) :=
  commit_minimal_paste_unconditional [navParam] ⟨0, []⟩ (str "y") (str "z")
    navParam (by decide) (by decide)

/-! ### Claim C7 -/

/-- Counterexample to claim C7 as stated: the `'c'` (copy) key makes the
engine itself terminate the process (`sys.exit(0)`) instead of returning
an outcome to its caller. -/
theorem copy_key_exits_process_cex :
    navigateRun (str "x") [navParam] ⟨0, []⟩ [.copyKey] =
      .processExit (str "x") := by
  decide

/-- Claim C7 (amended): for every key sequence that does not contain the
copy key, the run-loop never reaches the `sys.exit(0)` call — it yields a
final command, a cancellation, or is still pending more input; on the copy
key it exits the process after showing the final command. -/
theorem no_process_exit_without_copy_key
    (cmd : Str) (params : List Parameter) (st : NavState)
    (ks : List KeyEvent) (h : KeyEvent.copyKey ∉ ks) :
    ∀ c, navigateRun cmd params st ks ≠ NavResult.processExit c := by
  induction ks generalizing st with
  | nil => intro c; simp [navigateRun]
  | cons k ks ih =>
    intro c
    have hk : k ≠ KeyEvent.copyKey := fun he => h (he ▸ List.mem_cons_self k ks)
    have hks : KeyEvent.copyKey ∉ ks := fun hm => h (List.mem_cons_of_mem k hm)
    cases k with
    | quit => simp [navigateRun]
    | enter => simp [navigateRun]
    | copyKey => exact absurd rfl hk
    | tab => exact ih _ hks c
    | shiftTab => exact ih _ hks c
    | pasteV clip => exact ih _ hks c
    | bracketPaste t => exact ih _ hks c
    | charKey r => exact ih _ hks c
    | other => exact ih _ hks c

/-- Witness for claim C7's amended theorem on a concrete key sequence. -/
theorem no_process_exit_without_copy_key_witness :
    KeyEvent.copyKey ∉ [KeyEvent.tab, KeyEvent.enter] ∧
    ∀ c, navigateRun (str "x") [navParam] ⟨0, []⟩
      [KeyEvent.tab, KeyEvent.enter] ≠ NavResult.processExit c :=
  ⟨by decide,
    no_process_exit_without_copy_key (str "x") [navParam] ⟨0, []⟩ _ (by decide)⟩

/-! ### Claim C8 -/

theorem insertByStart_perm (p : Parameter) (l : List Parameter) :
    List.Perm (insertByStart p l) (p :: l) := by
  induction l with
  | nil => simp [insertByStart]
  | cons q qs ih =>
    by_cases h : p.start_pos ≤ q.start_pos
    · simp [insertByStart, h]
    · simpa [insertByStart, h] using
        ((ih.cons q).trans (List.Perm.swap p q qs))

theorem sortByStart_perm (l : List Parameter) : List.Perm (sortByStart l) l := by
  induction l with
  | nil => simp [sortByStart]
  | cons p ps ih => exact (insertByStart_perm p (sortByStart ps)).trans (ih.cons p)

theorem mem_sortByStart {p : Parameter} {l : List Parameter} :
    p ∈ sortByStart l ↔ p ∈ l := (sortByStart_perm l).mem_iff

theorem pyOverlapB_zero_end_left (p e : Parameter) (hp : p.end_pos = 0) :
    pyOverlapB p e = false := by
  simp [pyOverlapB, hp]

theorem pyOverlapB_zero_end_right (c p : Parameter) (hp : p.end_pos = 0) :
    pyOverlapB c p = false := by
  simp [pyOverlapB, hp]

theorem mem_dedupStep_of_mem {p : Parameter} (hp : p.end_pos = 0)
    {acc : List Parameter} (q : Parameter) (hacc : p ∈ acc) :
    p ∈ dedupStep acc q := by
  unfold dedupStep
  cases hfind : acc.find? (fun e => pyOverlapB q e) with
  | none => exact List.mem_append_left _ hacc
  | some e =>
    have hov : pyOverlapB q e = true := by
      simpa using List.find?_some hfind
    have hne : p ≠ e := by
      intro he
      rw [← he] at hov
      simp [pyOverlapB_zero_end_right q p hp] at hov
    show p ∈ (if specificity q.param_type > specificity e.param_type
      then acc.erase e ++ [q] else acc)
    by_cases hw : specificity q.param_type > specificity e.param_type
    · rw [if_pos hw]
      exact List.mem_append_left _ ((List.mem_erase_of_ne hne).mpr hacc)
    · rw [if_neg hw]
      exact hacc

theorem self_mem_dedupStep {p : Parameter} (hp : p.end_pos = 0)
    (acc : List Parameter) : p ∈ dedupStep acc p := by
  unfold dedupStep
  have hfind : acc.find? (fun e => pyOverlapB p e) = none := by
    rw [List.find?_eq_none]
    intro x _ hx
    simp [pyOverlapB_zero_end_left p x hp] at hx
  simp [hfind]

theorem mem_foldl_dedupStep {p : Parameter} (hp : p.end_pos = 0) :
    ∀ (cands acc : List Parameter), p ∈ acc ∨ p ∈ cands →
      p ∈ cands.foldl dedupStep acc := by
  intro cands
  induction cands with
  | nil => intro acc h; simpa using h
  | cons q rest ih =>
    intro acc h
    simp only [List.foldl_cons]
    apply ih
    rcases h with hacc | hq
    · exact Or.inl (mem_dedupStep_of_mem hp q hacc)
    · rcases List.mem_cons.mp hq with rfl | hrest
      · exact Or.inl (self_mem_dedupStep hp acc)
      · exact Or.inr hrest

theorem mem_dedupParameters_of_end_zero {p : Parameter} (hp : p.end_pos = 0)
    {cands : List Parameter} (hm : p ∈ cands) : p ∈ dedupParameters cands :=
  mem_foldl_dedupStep hp (sortByStart cands) []
    (Or.inr (mem_sortByStart.mpr hm))

/-- A hint with both span fields missing, for claim C8. -/
def spanlessHint : ExternalHint :=
  ⟨some (str "X"), none, none, none, none, none, none⟩

/-- Counterexample to claim C8 as stated: a hint with a missing span is not
dropped by the merge — on the command `ls` (no detected parameters) it
still contributes a `kind=option` parameter with the degenerate span
`[0, 0)` and `original_value` taken from the hint's name. -/
theorem invalid_hint_not_dropped_cex :
    mergePresetParameters (str "ls") (detectParameters (str "ls") noFs)
      [spanlessHint] =
      [⟨str "X", str "X", 0, 0, str "option", [], str "Parameter"⟩] := by
  decide

/-- Claim C8 (amended): the merge never fails, but a hint whose span
fields are missing is not dropped: it is converted to a `kind=option`
parameter with `start_pos = end_pos = 0` and `original_value` falling back
to the hint's own `original_value` or `name`, and that zero-width
parameter always survives deduplication (its span overlaps nothing under
the sweep's test), whatever else was detected or hinted. -/
theorem invalid_hint_kept_zero_width (cmd : Str) (detected : List Parameter)
    (pre post : List ExternalHint) (h : ExternalHint)
    (h2 : h.spanEnd = none) :
    hintToParameter cmd h ∈ mergePresetParameters cmd detected (pre ++ h :: post) := by
  have hend : (hintToParameter cmd h).end_pos = 0 := by
    simp [hintToParameter, h2]
  unfold mergePresetParameters
  rw [if_neg (by simp)]
  refine mem_sortByStart.mpr (mem_dedupParameters_of_end_zero hend ?_)
  exact List.mem_append_right _ (List.mem_map_of_mem _ (by simp))

/-- Witness for claim C8's amended theorem at the concrete spanless hint. -/
theorem invalid_hint_kept_zero_width_witness :
    spanlessHint.spanEnd = none ∧
    hintToParameter (str "ls") spanlessHint ∈
      mergePresetParameters (str "ls") (detectParameters (str "ls") noFs)
        ([] ++ spanlessHint :: []) :=
  ⟨rfl, invalid_hint_kept_zero_width (str "ls") _ [] [] spanlessHint rfl⟩

/-! ### Claim C3 -/

theorem pyOverlapB_false_symm :
    ∀ {a b : Parameter}, pyOverlapB a b = false → pyOverlapB b a = false :=
  fun {a b} h => (pyOverlapB_comm b a).trans h

theorem insertByStart_sorted {l : List Parameter} (p : Parameter)
    (h : List.Pairwise (fun a b => a.start_pos ≤ b.start_pos) l) :
    List.Pairwise (fun a b => a.start_pos ≤ b.start_pos) (insertByStart p l) := by
  induction l with
  | nil => simp [insertByStart]
  | cons q qs ih =>
    rw [List.pairwise_cons] at h
    by_cases hle : p.start_pos ≤ q.start_pos
    · rw [insertByStart, if_pos hle, List.pairwise_cons]
      refine ⟨fun x hx => ?_, List.pairwise_cons.mpr h⟩
      rcases List.mem_cons.mp hx with rfl | hx
      · exact hle
      · exact hle.trans (h.1 x hx)
    · rw [insertByStart, if_neg hle, List.pairwise_cons]
      refine ⟨fun x hx => ?_, ih h.2⟩
      rcases List.mem_cons.mp ((insertByStart_perm p qs).mem_iff.mp hx) with rfl | hx
      · exact Nat.le_of_not_le hle
      · exact h.1 x hx

theorem sortByStart_sorted (l : List Parameter) :
    List.Pairwise (fun a b => a.start_pos ≤ b.start_pos) (sortByStart l) := by
  induction l with
  | nil => exact List.Pairwise.nil
  | cons p ps ih => exact insertByStart_sorted p ih

/-- The dedup sweep keeps its accumulator pairwise non-overlapping: the
candidates arrive sorted by `start_pos`, so the accumulator's spans all
start at or before the current candidate's start, and a candidate can
overlap at most one accepted span — removing it (or dropping the
candidate) preserves the invariant. -/
theorem dedup_foldl_nonoverlap :
    ∀ (cands acc : List Parameter),
      List.Pairwise (fun a b => a.start_pos ≤ b.start_pos) cands →
      List.Pairwise (fun a b => pyOverlapB a b = false) acc →
      (∀ e ∈ acc, ∀ c ∈ cands, e.start_pos ≤ c.start_pos) →
      List.Pairwise (fun a b => pyOverlapB a b = false)
        (cands.foldl dedupStep acc) := by
  intro cands
  induction cands with
  | nil => intro acc _ hacc _; simpa using hacc
  | cons p rest ih =>
    intro acc hsorted hacc hdom
    rw [List.pairwise_cons] at hsorted
    have hdomp : ∀ e ∈ acc, e.start_pos ≤ p.start_pos := fun e he =>
      hdom e he p (List.mem_cons_self p rest)
    simp only [List.foldl_cons]
    -- Establish the two invariants for the new accumulator.
    have step : List.Pairwise (fun a b => pyOverlapB a b = false)
        (dedupStep acc p) ∧
        (∀ e ∈ dedupStep acc p, e.start_pos ≤ p.start_pos ∨ e = p) := by
      cases hfind : acc.find? (fun e => pyOverlapB p e) with
      | none =>
        have hred : dedupStep acc p = acc ++ [p] := by
          unfold dedupStep; rw [hfind]
        rw [hred]
        have hnone : ∀ e ∈ acc, pyOverlapB p e = false := by
          intro e he
          have := List.find?_eq_none.mp hfind e he
          simpa using this
        constructor
        · rw [List.pairwise_append]
          exact ⟨hacc, List.pairwise_singleton _ _,
            fun a ha b hb => by
              rcases List.mem_singleton.mp hb with rfl
              exact pyOverlapB_false_symm (hnone a ha)⟩
        · intro e he
          rcases List.mem_append.mp he with he | he
          · exact Or.inl (hdomp e he)
          · exact Or.inr (List.mem_singleton.mp he)
      | some e =>
        have hov : pyOverlapB p e = true := List.find?_some hfind
        have hemem : e ∈ acc := List.mem_of_find?_eq_some hfind
        have hred : dedupStep acc p =
            if specificity p.param_type > specificity e.param_type
            then acc.erase e ++ [p] else acc := by
          unfold dedupStep; rw [hfind]
        rw [hred]
        by_cases hw : specificity p.param_type > specificity e.param_type
        · rw [if_pos hw]
          -- Key: nothing left in `acc.erase e` overlaps `p`.
          have hkey : ∀ f ∈ acc.erase e, pyOverlapB p f = false := by
            intro f hf
            by_contra hovf'
            have hovf : pyOverlapB p f = true := by
              cases hb : pyOverlapB p f with
              | false => exact absurd hb hovf'
              | true => rfl
            have hfacc : f ∈ acc := List.erase_subset _ _ hf
            -- `p` starts at or after both spans; overlapping both start
            -- and a disjoint pair is impossible.
            have hpe : p.start_pos < e.end_pos ∧ e.start_pos < p.end_pos := by
              simpa [pyOverlapB] using hov
            have hpf : p.start_pos < f.end_pos ∧ f.start_pos < p.end_pos := by
              simpa [pyOverlapB] using hovf
            by_cases hfe : f = e
            · -- A second copy of `e` would force `e` to be degenerate,
              -- contradicting that `p` overlaps it.
              subst hfe
              have hdup : List.Duplicate f acc := by
                rw [List.duplicate_iff_two_le_count]
                have h1 : 0 < (acc.erase f).count f :=
                  List.count_pos_iff.mpr hf
                have h2 := List.count_erase_self f acc
                omega
              have hsub : [f, f].Sublist acc :=
                List.duplicate_iff_sublist.mp hdup
              have hff : pyOverlapB f f = false :=
                (List.pairwise_cons.mp (List.Pairwise.sublist hsub hacc)).1 f
                  (List.mem_singleton.mpr rfl)
              have : ¬(f.start_pos < f.end_pos) := by
                intro hlt
                simp [pyOverlapB, hlt] at hff
              exact this (Nat.lt_of_le_of_lt (hdomp f hfacc) hpf.1)
            · have hfeR : pyOverlapB f e = false :=
                List.Pairwise.forall
                  (fun x y h => pyOverlapB_false_symm h) hacc hfacc hemem hfe
              have hdisj : e.end_pos ≤ f.start_pos ∨ f.end_pos ≤ e.start_pos := by
                simp only [pyOverlapB, Bool.and_eq_false_iff,
                  decide_eq_false_iff_not, Nat.not_lt] at hfeR
                omega
              have h1 := hdomp e hemem
              have h2 := hdomp f hfacc
              rcases hdisj with hd | hd
              · omega
              · omega
          constructor
          · rw [List.pairwise_append]
            refine ⟨List.Pairwise.sublist (List.erase_sublist e acc) hacc,
              List.pairwise_singleton _ _, fun a ha b hb => ?_⟩
            rcases List.mem_singleton.mp hb with rfl
            exact pyOverlapB_false_symm (hkey a ha)
          · intro f hf
            rcases List.mem_append.mp hf with hf | hf
            · exact Or.inl (hdomp f (List.erase_subset _ _ hf))
            · exact Or.inr (List.mem_singleton.mp hf)
        · rw [if_neg hw]
          exact ⟨hacc, fun f hf => Or.inl (hdomp f hf)⟩
    refine ih (dedupStep acc p) hsorted.2 step.1 ?_
    intro e he c hc
    rcases step.2 e he with hle | rfl
    · exact hle.trans (hsorted.1 c hc)
    · exact hsorted.1 c hc

/-- Claim C3: for every candidate list (hence for every command and every
combination of detector strategies, external hints included) the
parameter list produced by the dedup-then-sort pipeline has pairwise
non-overlapping spans (the sweep's own overlap test evaluates to `false`
on every pair) and is sorted ascending by `start_pos`; in particular this
holds for `detect_parameters` on any command and filesystem, and for the
preset-hint merge of `customize_command`. -/
theorem dedup_output_nonoverlapping_sorted :
    (∀ cands : List Parameter,
      List.Pairwise (fun a b => pyOverlapB a b = false)
        (sortByStart (dedupParameters cands)) ∧
      List.Pairwise (fun a b => a.start_pos ≤ b.start_pos)
        (sortByStart (dedupParameters cands))) ∧
    (∀ cmd fs,
      List.Pairwise (fun a b => pyOverlapB a b = false)
        (detectParameters cmd fs) ∧
      List.Pairwise (fun a b => a.start_pos ≤ b.start_pos)
        (detectParameters cmd fs)) ∧
    (∀ cmd fs presets,
      List.Pairwise (fun a b => pyOverlapB a b = false)
        (mergePresetParameters cmd (detectParameters cmd fs) presets) ∧
      List.Pairwise (fun a b => a.start_pos ≤ b.start_pos)
        (mergePresetParameters cmd (detectParameters cmd fs) presets)) := by
  have main : ∀ cands : List Parameter,
      List.Pairwise (fun a b => pyOverlapB a b = false)
        (sortByStart (dedupParameters cands)) ∧
      List.Pairwise (fun a b => a.start_pos ≤ b.start_pos)
        (sortByStart (dedupParameters cands)) := by
    intro cands
    have hded : List.Pairwise (fun a b => pyOverlapB a b = false)
        (dedupParameters cands) :=
      dedup_foldl_nonoverlap (sortByStart cands) []
        (sortByStart_sorted cands) List.Pairwise.nil (by simp)
    constructor
    · exact (List.Perm.pairwise_iff
        (fun h => pyOverlapB_false_symm h)
        (sortByStart_perm (dedupParameters cands))).mpr hded
    · exact sortByStart_sorted (dedupParameters cands)
  refine ⟨main, fun cmd fs => main _, fun cmd fs presets => ?_⟩
  by_cases hp : presets.isEmpty
  · rw [mergePresetParameters, if_pos hp]
    exact main _
  · rw [mergePresetParameters, if_neg hp]
    exact main _

/-! ### Claim C10 -/

/-- The span quadruple of a parameter: `(original_value, start_pos,
end_pos, param_type)` — everything detection is specified to determine,
with the (filesystem-dependent) suggestions stripped. -/
def spanData (p : Parameter) : Str × Nat × Nat × Str :=
  (p.original_value, p.start_pos, p.end_pos, p.param_type)

theorem spanData_start {a b : Parameter} (h : spanData a = spanData b) :
    a.start_pos = b.start_pos := congrArg (fun t => t.2.1) h

theorem spanData_end {a b : Parameter} (h : spanData a = spanData b) :
    a.end_pos = b.end_pos := congrArg (fun t => t.2.2.1) h

theorem spanData_type {a b : Parameter} (h : spanData a = spanData b) :
    a.param_type = b.param_type := congrArg (fun t => t.2.2.2) h

theorem pyOverlapB_spans {a₁ a₂ b₁ b₂ : Parameter}
    (ha : spanData a₁ = spanData a₂) (hb : spanData b₁ = spanData b₂) :
    pyOverlapB a₁ b₁ = pyOverlapB a₂ b₂ := by
  simp only [pyOverlapB, spanData_start ha, spanData_end ha,
    spanData_start hb, spanData_end hb]

theorem spanData_mkFileParam (cmd : Str) (fs : FileSystem) (s e : Nat) :
    spanData (mkFileParam cmd fs s e) = (sliceN cmd s e, s, e, str "file") :=
  rfl

theorem spanData_mkPathParam (cmd : Str) (fs : FileSystem) (kw : Str)
    (ts te : Nat) :
    spanData (mkPathParam cmd fs kw ts te) =
      (sliceN cmd ts te, ts, te, str "path") := rfl

theorem spanData_mkOptionParam (cmd : Str) (fs : FileSystem) (flag : Str)
    (vs ve : Nat) :
    spanData (mkOptionParam cmd fs flag vs ve) =
      (sliceN cmd vs ve, vs, ve, str "option") := rfl

theorem scanQuoted_spans (cmd : Str) (exts : List Str) (fs₁ fs₂ : FileSystem) :
    ∀ (fuel i : Nat) (acc₁ acc₂ : List Parameter),
      acc₁.map spanData = acc₂.map spanData →
      (scanQuoted cmd exts fs₁ fuel i acc₁).map spanData =
        (scanQuoted cmd exts fs₂ fuel i acc₂).map spanData := by
  intro fuel
  induction fuel with
  | zero => intro i acc₁ acc₂ h; simpa [scanQuoted] using h
  | succ fuel ih =>
    intro i acc₁ acc₂ h
    simp only [scanQuoted]
    cases cmd[i]? with
    | none => exact h
    | some c =>
      dsimp only
      split_ifs with h1
      · exact ih _ _ _ (by simp [h, spanData_mkFileParam])
      · exact ih _ _ _ h
      · exact ih _ _ _ h

theorem any_map_general {α β : Type} (f : α → β) (p : β → Bool) :
    ∀ l : List α, (l.map f).any p = l.any (fun a => p (f a)) := by
  intro l
  induction l with
  | nil => rfl
  | cons a t ih => simp [ih]

theorem scanUnquoted_spans (cmd : Str) (exts : List Str) (fs₁ fs₂ : FileSystem) :
    ∀ (fuel i : Nat) (acc₁ acc₂ : List Parameter),
      acc₁.map spanData = acc₂.map spanData →
      (scanUnquoted cmd exts fs₁ fuel i acc₁).map spanData =
        (scanUnquoted cmd exts fs₂ fuel i acc₂).map spanData := by
  intro fuel
  induction fuel with
  | zero => intro i acc₁ acc₂ h; simpa [scanUnquoted] using h
  | succ fuel ih =>
    intro i acc₁ acc₂ h
    simp only [scanUnquoted]
    cases cmd[i]? with
    | none => exact h
    | some c =>
      dsimp only
      split_ifs with h1
      · cases hd : findBestDot cmd exts i
          (runLen (fun d => !(isQuote d || isWs d)) (cmd.drop i) - 1) with
        | none => exact ih _ _ _ h
        | some en =>
          dsimp only
          have hany : (acc₁.any fun q =>
              decide (q.start_pos < en ∧ i < q.end_pos)) =
              (acc₂.any fun q => decide (q.start_pos < en ∧ i < q.end_pos)) := by
            have e1 : ∀ l : List Parameter,
                (l.any fun q => decide (q.start_pos < en ∧ i < q.end_pos)) =
                (l.map spanData).any
                  (fun t => decide (t.2.1 < en ∧ i < t.2.2.1)) := by
              intro l
              rw [any_map_general]
              rfl
            rw [e1, e1, h]
          rw [hany]
          split_ifs with h2
          · exact ih _ _ _ h
          · exact ih _ _ _ (by simp [h, spanData_mkFileParam])
      · exact ih _ _ _ h

theorem findFileParameters_spans (cmd : Str) (fs₁ fs₂ : FileSystem) :
    (findFileParameters cmd fs₁).map spanData =
      (findFileParameters cmd fs₂).map spanData := by
  unfold findFileParameters
  have main : ∀ (gs : List (List Str)) (acc₁ acc₂ : List Parameter),
      acc₁.map spanData = acc₂.map spanData →
      (gs.foldl (fun acc exts =>
          scanUnquoted cmd exts fs₁ (cmd.length + 1) 0
            (scanQuoted cmd exts fs₁ (cmd.length + 1) 0 acc)) acc₁).map spanData =
        (gs.foldl (fun acc exts =>
          scanUnquoted cmd exts fs₂ (cmd.length + 1) 0
            (scanQuoted cmd exts fs₂ (cmd.length + 1) 0 acc)) acc₂).map spanData := by
    intro gs
    induction gs with
    | nil => intro acc₁ acc₂ h; simpa using h
    | cons g gs ih =>
      intro acc₁ acc₂ h
      simp only [List.foldl_cons]
      exact ih _ _ (scanUnquoted_spans cmd g fs₁ fs₂ _ _ _ _
        (scanQuoted_spans cmd g fs₁ fs₂ _ _ _ _ h))
  exact main extGroups [] [] rfl

theorem scanPath_spans (cmd : Str) (fs₁ fs₂ : FileSystem) :
    ∀ (fuel i : Nat),
      (scanPath cmd fs₁ fuel i).map spanData =
        (scanPath cmd fs₂ fuel i).map spanData := by
  intro fuel
  induction fuel with
  | zero => intro i; simp [scanPath]
  | succ fuel ih =>
    intro i
    simp only [scanPath]
    cases cmd[i]? with
    | none => rfl
    | some c =>
      dsimp only
      split_ifs with h1
      · cases hp : tryPathAt cmd i pathKeywords with
        | none => exact ih _
        | some kte =>
          obtain ⟨kw, ts, te⟩ := kte
          dsimp only
          split_ifs with h2
          · simpa using ih _
          · simpa [spanData_mkPathParam] using ih _
      · exact ih _

theorem scanOptEq_spans (cmd : Str) (fs₁ fs₂ : FileSystem) :
    ∀ (fuel i : Nat),
      (scanOptEq cmd fs₁ fuel i).map spanData =
        (scanOptEq cmd fs₂ fuel i).map spanData := by
  intro fuel
  induction fuel with
  | zero => intro i; simp [scanOptEq]
  | succ fuel ih =>
    intro i
    simp only [scanOptEq]
    cases cmd[i]? with
    | none => rfl
    | some c =>
      dsimp only
      cases hf : tryFlagEqAt cmd i flagAlternatives with
      | none => exact ih _
      | some fve =>
        obtain ⟨f, vs, ve⟩ := fve
        dsimp only
        simpa [spanData_mkOptionParam] using ih _

theorem scanOptSp_spans (cmd : Str) (fs₁ fs₂ : FileSystem) :
    ∀ (fuel i : Nat),
      (scanOptSp cmd fs₁ fuel i).map spanData =
        (scanOptSp cmd fs₂ fuel i).map spanData := by
  intro fuel
  induction fuel with
  | zero => intro i; simp [scanOptSp]
  | succ fuel ih =>
    intro i
    simp only [scanOptSp]
    cases cmd[i]? with
    | none => rfl
    | some c =>
      dsimp only
      cases hf : tryFlagSpAt cmd i flagAlternatives with
      | none => exact ih _
      | some fve =>
        obtain ⟨f, vs, ve⟩ := fve
        dsimp only
        simpa [spanData_mkOptionParam] using ih _

theorem insertByStart_spans :
    ∀ {p₁ p₂ : Parameter} {l₁ l₂ : List Parameter},
      spanData p₁ = spanData p₂ → l₁.map spanData = l₂.map spanData →
      (insertByStart p₁ l₁).map spanData = (insertByStart p₂ l₂).map spanData := by
  intro p₁ p₂ l₁
  induction l₁ generalizing p₁ p₂ with
  | nil =>
    intro l₂ hp hl
    cases l₂ with
    | nil => simpa [insertByStart] using hp
    | cons q₂ t₂ => simp at hl
  | cons q₁ t₁ ih =>
    intro l₂ hp hl
    cases l₂ with
    | nil => simp at hl
    | cons q₂ t₂ =>
      simp only [List.map_cons, List.cons.injEq] at hl
      have hst : q₁.start_pos = q₂.start_pos := spanData_start hl.1
      have hpp : p₁.start_pos = p₂.start_pos := spanData_start hp
      by_cases hle : p₁.start_pos ≤ q₁.start_pos
      · rw [insertByStart, if_pos hle, insertByStart,
          if_pos (by rw [← hst, ← hpp]; exact hle)]
        simp [hp, hl.1, hl.2]
      · rw [insertByStart, if_neg hle, insertByStart,
          if_neg (by rw [← hst, ← hpp]; exact hle)]
        simp only [List.map_cons, hl.1]
        rw [ih hp hl.2]

theorem sortByStart_spans :
    ∀ {l₁ l₂ : List Parameter}, l₁.map spanData = l₂.map spanData →
      (sortByStart l₁).map spanData = (sortByStart l₂).map spanData := by
  intro l₁
  induction l₁ with
  | nil =>
    intro l₂ h
    cases l₂ with
    | nil => rfl
    | cons q t => simp at h
  | cons p t ih =>
    intro l₂ h
    cases l₂ with
    | nil => simp at h
    | cons q t₂ =>
      simp only [List.map_cons, List.cons.injEq] at h
      exact insertByStart_spans h.1 (ih h.2)

theorem find?Ov_spans :
    ∀ {acc₁ acc₂ : List Parameter} {p₁ p₂ : Parameter},
      spanData p₁ = spanData p₂ → acc₁.map spanData = acc₂.map spanData →
      (acc₁.find? (fun e => pyOverlapB p₁ e) = none ∧
        acc₂.find? (fun e => pyOverlapB p₂ e) = none) ∨
      (∃ e₁ e₂, acc₁.find? (fun e => pyOverlapB p₁ e) = some e₁ ∧
        acc₂.find? (fun e => pyOverlapB p₂ e) = some e₂ ∧
        spanData e₁ = spanData e₂ ∧
        (acc₁.erase e₁).map spanData = (acc₂.erase e₂).map spanData) := by
  intro acc₁
  induction acc₁ with
  | nil =>
    intro acc₂ p₁ p₂ hp hl
    cases acc₂ with
    | nil => exact Or.inl ⟨rfl, rfl⟩
    | cons q t => simp at hl
  | cons a₁ t₁ ih =>
    intro acc₂ p₁ p₂ hp hl
    cases acc₂ with
    | nil => simp at hl
    | cons a₂ t₂ =>
      simp only [List.map_cons, List.cons.injEq] at hl
      have hova : pyOverlapB p₁ a₁ = pyOverlapB p₂ a₂ := pyOverlapB_spans hp hl.1
      cases hb : pyOverlapB p₁ a₁ with
      | true =>
        refine Or.inr ⟨a₁, a₂, ?_, ?_, hl.1, ?_⟩
        · simp [List.find?, hb]
        · simp [List.find?, ← hova, hb]
        · rw [List.erase_cons_head, List.erase_cons_head]
          exact hl.2
      | false =>
        have hb₂ : pyOverlapB p₂ a₂ = false := hova ▸ hb
        rcases ih hp hl.2 with ⟨hn₁, hn₂⟩ | ⟨e₁, e₂, hf₁, hf₂, he, her⟩
        · refine Or.inl ⟨?_, ?_⟩
          · simp [List.find?, hb, hn₁]
          · simp [List.find?, hb₂, hn₂]
        · refine Or.inr ⟨e₁, e₂, ?_, ?_, he, ?_⟩
          · simp [List.find?, hb, hf₁]
          · simp [List.find?, hb₂, hf₂]
          · have hne₁ : ¬(a₁ == e₁) = true := by
              intro hq
              have : a₁ = e₁ := by simpa using hq
              subst this
              rw [List.find?_some hf₁] at hb
              exact Bool.true_eq_false.mp hb
            have hne₂ : ¬(a₂ == e₂) = true := by
              intro hq
              have : a₂ = e₂ := by simpa using hq
              subst this
              rw [List.find?_some hf₂] at hb₂
              exact Bool.true_eq_false.mp hb₂
            rw [List.erase_cons, List.erase_cons]
            simp only [Bool.not_eq_true] at hne₁ hne₂
            rw [if_neg (by simp [hne₁]), if_neg (by simp [hne₂])]
            simp [hl.1, her]

theorem dedupStep_spans {acc₁ acc₂ : List Parameter} {p₁ p₂ : Parameter}
    (hp : spanData p₁ = spanData p₂)
    (hl : acc₁.map spanData = acc₂.map spanData) :
    (dedupStep acc₁ p₁).map spanData = (dedupStep acc₂ p₂).map spanData := by
  rcases find?Ov_spans hp hl with ⟨hn₁, hn₂⟩ | ⟨e₁, e₂, hf₁, hf₂, he, her⟩
  · have hr₁ : dedupStep acc₁ p₁ = acc₁ ++ [p₁] := by
      unfold dedupStep; rw [hn₁]
    have hr₂ : dedupStep acc₂ p₂ = acc₂ ++ [p₂] := by
      unfold dedupStep; rw [hn₂]
    rw [hr₁, hr₂]
    simp [hl, hp]
  · have hr₁ : dedupStep acc₁ p₁ =
        if specificity p₁.param_type > specificity e₁.param_type
        then acc₁.erase e₁ ++ [p₁] else acc₁ := by
      unfold dedupStep; rw [hf₁]
    have hr₂ : dedupStep acc₂ p₂ =
        if specificity p₂.param_type > specificity e₂.param_type
        then acc₂.erase e₂ ++ [p₂] else acc₂ := by
      unfold dedupStep; rw [hf₂]
    rw [hr₁, hr₂, spanData_type hp, spanData_type he]
    split_ifs with hw
    · simp [her, hp]
    · exact hl

theorem dedupParameters_spans {l₁ l₂ : List Parameter}
    (h : l₁.map spanData = l₂.map spanData) :
    (dedupParameters l₁).map spanData = (dedupParameters l₂).map spanData := by
  unfold dedupParameters
  have main : ∀ (c₁ c₂ acc₁ acc₂ : List Parameter),
      c₁.map spanData = c₂.map spanData →
      acc₁.map spanData = acc₂.map spanData →
      (c₁.foldl dedupStep acc₁).map spanData =
        (c₂.foldl dedupStep acc₂).map spanData := by
    intro c₁
    induction c₁ with
    | nil =>
      intro c₂ acc₁ acc₂ hc hacc
      cases c₂ with
      | nil => simpa using hacc
      | cons q t => simp at hc
    | cons q₁ t₁ ih =>
      intro c₂ acc₁ acc₂ hc hacc
      cases c₂ with
      | nil => simp at hc
      | cons q₂ t₂ =>
        simp only [List.map_cons, List.cons.injEq] at hc
        simp only [List.foldl_cons]
        exact ih _ _ _ hc.2 (dedupStep_spans hc.1 hacc)
  exact main _ _ [] [] (sortByStart_spans h) rfl

/-- Claim C10: detection is deterministic with respect to the command
text — for any two filesystem oracles (including ones on which every
probe fails) the detector returns the same list of
`(original_value, start_pos, end_pos, kind)` span quadruples; filesystem
state feeds only the stripped `suggestions`. -/
theorem detection_independent_of_filesystem (cmd : Str)
    (fs₁ fs₂ : FileSystem) :
    (detectParameters cmd fs₁).map spanData =
      (detectParameters cmd fs₂).map spanData := by
  unfold detectParameters
  refine sortByStart_spans (dedupParameters_spans ?_)
  simp only [List.map_append]
  rw [findFileParameters_spans cmd fs₁ fs₂]
  rw [show (findPathParameters cmd fs₁).map spanData =
      (findPathParameters cmd fs₂).map spanData from
    scanPath_spans cmd fs₁ fs₂ _ _]
  rw [show (findOptionParameters cmd fs₁).map spanData =
      (findOptionParameters cmd fs₂).map spanData by
    unfold findOptionParameters
    simp only [List.map_append]
    rw [scanOptEq_spans cmd fs₁ fs₂, scanOptSp_spans cmd fs₁ fs₂]]

/-! ### Claim C1 — canonical segment semantics -/

/-- Canonical segment decomposition of the customized command: walk the
parameters left to right (index `i`, cursor `pos` in the base), emitting
the untouched gap before each span and the parameter's effective value.
Both `apply` (descending replacement) and `render` (ascending walk with a
running delta) are proved below to produce exactly this string. -/
def canonGo (base : Str) (changes : EditMap) : Nat → Nat → List Parameter → Str
  | _, pos, [] => base.drop pos
  | i, pos, p :: ps =>
    sliceN base pos p.start_pos ++
      (lookupEdit changes i).getD p.original_value ++
      canonGo base changes (i + 1) p.end_pos ps

/-- The data-model invariant of a `ParameterSet` over `base`, phrased as a
chain from cursor `pos`: each span starts at or after the cursor, is
non-empty and in range, carries the exact substring as `original_value`,
and the next span starts at or after its end. -/
def ChainOk (base : Str) : Nat → List Parameter → Prop
  | _, [] => True
  | pos, p :: ps =>
    pos ≤ p.start_pos ∧ p.start_pos < p.end_pos ∧ p.end_pos ≤ base.length ∧
    p.original_value = sliceN base p.start_pos p.end_pos ∧
    ChainOk base p.end_pos ps

theorem sliceN_length {s : Str} {a b : Nat} (h1 : a ≤ b) (h2 : b ≤ s.length) :
    (sliceN s a b).length = b - a := by
  simp only [sliceN, List.length_drop, List.length_take]
  omega

theorem glue_sliceN {s : Str} {a b : Nat} (h1 : a ≤ b) :
    s.take a ++ sliceN s a b ++ s.drop b = s := by
  have h3 : s.take a = (s.take b).take a := by
    rw [List.take_take, Nat.min_eq_left h1]
  calc s.take a ++ sliceN s a b ++ s.drop b
      = ((s.take b).take a ++ (s.take b).drop a) ++ s.drop b := by
        rw [← h3]; rfl
    _ = s.take b ++ s.drop b := by rw [List.take_append_drop]
    _ = s := List.take_append_drop b s

theorem chainOk_take (base : Str) :
    ∀ (qs : List Parameter) (q : Parameter) (pos : Nat),
      ChainOk base pos (qs ++ [q]) → ChainOk base pos qs := by
  intro qs
  induction qs with
  | nil => intro q pos _; trivial
  | cons p ps ih =>
    intro q pos h
    obtain ⟨h1, h2, h3, h4, h5⟩ := h
    exact ⟨h1, h2, h3, h4, ih q _ h5⟩

theorem chainOk_upper (base : Str) :
    ∀ (qs : List Parameter) (q : Parameter) (pos : Nat),
      ChainOk base pos (qs ++ [q]) →
      (pos ≤ q.start_pos ∧ q.start_pos < q.end_pos ∧
        q.end_pos ≤ base.length ∧
        q.original_value = sliceN base q.start_pos q.end_pos) ∧
      ∀ p ∈ qs, p.end_pos ≤ q.start_pos := by
  intro qs
  induction qs with
  | nil =>
    intro q pos h
    obtain ⟨h1, h2, h3, h4, _⟩ := h
    exact ⟨⟨h1, h2, h3, h4⟩, by simp⟩
  | cons p ps ih =>
    intro q pos h
    obtain ⟨h1, h2, h3, h4, h5⟩ := h
    obtain ⟨⟨g1, g2, g3, g4⟩, g5⟩ := ih q _ h5
    refine ⟨⟨le_trans h1 (le_trans (Nat.le_of_lt h2) g1), g2, g3, g4⟩, ?_⟩
    intro x hx
    rcases List.mem_cons.mp hx with rfl | hx
    · exact g1
    · exact g5 x hx

/-- Transfer the chain invariant to another base string that agrees below
a cut `c` lying above every span of the list. -/
theorem chainOk_of_take_eq {base base' : Str} {c : Nat} :
    ∀ (qs : List Parameter) (pos : Nat),
      ChainOk base pos qs → (∀ p ∈ qs, p.end_pos ≤ c) →
      base.take c = base'.take c → c ≤ base'.length →
      ChainOk base' pos qs := by
  intro qs
  induction qs with
  | nil => intro pos _ _ _ _; trivial
  | cons p ps ih =>
    intro pos h hc htake hlen
    obtain ⟨h1, h2, h3, h4, h5⟩ := h
    have hpc : p.end_pos ≤ c := hc p (List.mem_cons_self p ps)
    refine ⟨h1, h2, le_trans hpc hlen, ?_, ?_⟩
    · rw [h4]
      have e1 : base.take p.end_pos = base'.take p.end_pos := by
        have t1 : base.take p.end_pos = (base.take c).take p.end_pos := by
          rw [List.take_take, Nat.min_eq_left hpc]
        have t2 : base'.take p.end_pos = (base'.take c).take p.end_pos := by
          rw [List.take_take, Nat.min_eq_left hpc]
        rw [t1, t2, htake]
      simp only [sliceN, e1]
    · exact ih _ h5 (fun x hx => hc x (List.mem_cons_of_mem p hx)) htake hlen

/-! ### Claim C1 — apply equals the canonical string -/

theorem insertDescNat_of_ge {m : Nat} :
    ∀ {l : List Nat}, (∀ x ∈ l, x ≤ m) → insertDescNat m l = m :: l := by
  intro l h
  cases l with
  | nil => rfl
  | cons y ys =>
    rw [insertDescNat, if_pos (h y (List.mem_cons_self y ys))]

theorem insertDescNat_perm (x : Nat) (l : List Nat) :
    List.Perm (insertDescNat x l) (x :: l) := by
  induction l with
  | nil => simp [insertDescNat]
  | cons y ys ih =>
    by_cases h : x ≥ y
    · simp [insertDescNat, h]
    · simpa [insertDescNat, h] using ((ih.cons y).trans (List.Perm.swap x y ys))

theorem sortDescNat_perm (l : List Nat) : List.Perm (sortDescNat l) l := by
  induction l with
  | nil => simp [sortDescNat]
  | cons y ys ih => exact (insertDescNat_perm y (sortDescNat ys)).trans (ih.cons y)

theorem sortDescNat_eq_max_cons :
    ∀ {l : List Nat} {m : Nat}, m ∈ l → (∀ x ∈ l, x ≤ m) → l.Nodup →
      sortDescNat l = m :: sortDescNat (l.erase m) := by
  intro l
  induction l with
  | nil => intro m hm _ _; exact absurd hm (List.not_mem_nil m)
  | cons y ys ih =>
    intro m hm hmax hnd
    rw [List.nodup_cons] at hnd
    by_cases hy : y = m
    · subst hy
      have : sortDescNat (y :: ys) = insertDescNat y (sortDescNat ys) := rfl
      rw [this, insertDescNat_of_ge, List.erase_cons_head]
      intro x hx
      exact hmax x (List.mem_cons_of_mem y ((sortDescNat_perm ys).mem_iff.mp hx))
    · have hmys : m ∈ ys := by
        rcases List.mem_cons.mp hm with h | h
        · exact absurd h.symm hy
        · exact h
      have hylt : ¬(y ≥ m) := fun hge =>
        hy (Nat.le_antisymm (hmax y (List.mem_cons_self y ys)) hge)
      have step1 : sortDescNat (y :: ys) = insertDescNat y (sortDescNat ys) := rfl
      rw [step1,
        ih hmys (fun x hx => hmax x (List.mem_cons_of_mem y hx)) hnd.2,
        insertDescNat, if_neg hylt,
        List.erase_cons_tail (by simpa using fun he => hy he)]
      rfl

theorem lookupEdit_cons_eq {a k : Nat} {b : Str} {rest : EditMap}
    (h : a = k) : lookupEdit ((a, b) :: rest) k = some b := by
  have hb : (a == k) = true := by simpa using h
  simp [lookupEdit, List.find?, hb]

theorem lookupEdit_cons_ne {a k : Nat} {b : Str} {rest : EditMap}
    (h : a ≠ k) : lookupEdit ((a, b) :: rest) k = lookupEdit rest k := by
  have hb : (a == k) = false := by simpa using h
  simp [lookupEdit, List.find?, hb]

theorem lookupEdit_isSome_of_mem :
    ∀ {m : EditMap} {k : Nat}, k ∈ keysOf m → ∃ v, lookupEdit m k = some v := by
  intro m
  induction m with
  | nil => intro k hk; simp [keysOf] at hk
  | cons kv rest ih =>
    intro k hk
    obtain ⟨k', v'⟩ := kv
    by_cases h : k' = k
    · exact ⟨v', lookupEdit_cons_eq h⟩
    · have hk2 : k ∈ keysOf rest := by
        simp only [keysOf, List.map_cons, List.mem_cons] at hk
        rcases hk with h1 | h1
        · exact absurd h1.symm h
        · exact h1
      rw [lookupEdit_cons_ne h]
      exact ih hk2

theorem keysOf_delEdit (m : EditMap) (k : Nat) :
    keysOf (delEdit m k) = (keysOf m).erase k := by
  induction m with
  | nil => rfl
  | cons kv rest ih =>
    obtain ⟨k', v'⟩ := kv
    by_cases h : k' = k
    · subst h
      rw [delEdit, if_pos (by simp)]
      show keysOf rest = (k' :: keysOf rest).erase k'
      rw [List.erase_cons_head]
    · rw [delEdit, if_neg (by simpa using h)]
      show k' :: keysOf (delEdit rest k) = (k' :: keysOf rest).erase k
      rw [List.erase_cons_tail (by simpa using h), ih]

theorem lookupEdit_delEdit_ne :
    ∀ (m : EditMap) {k k' : Nat}, k' ≠ k →
      lookupEdit (delEdit m k) k' = lookupEdit m k' := by
  intro m
  induction m with
  | nil => intro k k' _; rfl
  | cons kv rest ih =>
    intro k k' hne
    obtain ⟨a, b⟩ := kv
    by_cases h : a = k
    · subst h
      rw [delEdit, if_pos (by simp), lookupEdit_cons_ne (fun he => hne he.symm)]
    · rw [delEdit, if_neg (by simpa using h)]
      by_cases h2 : a = k'
      · rw [lookupEdit_cons_eq h2, lookupEdit_cons_eq h2]
      · rw [lookupEdit_cons_ne h2, lookupEdit_cons_ne h2]
        exact ih hne

theorem foldl_applyStep_truncate (qs : List Parameter) (q : Parameter)
    (changes changes' : EditMap)
    (hlook : ∀ k, k < qs.length → lookupEdit changes' k = lookupEdit changes k) :
    ∀ (ks : List Nat) (b : Str), (∀ k ∈ ks, k < qs.length) →
      List.foldl (applyStep (qs ++ [q]) changes) b ks =
        List.foldl (applyStep qs changes') b ks := by
  intro ks
  induction ks with
  | nil => intro b _; rfl
  | cons k kt ih =>
    intro b hk
    have hklt : k < qs.length := hk k (List.mem_cons_self k kt)
    have hstep : applyStep (qs ++ [q]) changes b k = applyStep qs changes' b k := by
      rw [applyStep, applyStep, List.getElem?_append, if_pos hklt,
        hlook k hklt]
    simp only [List.foldl_cons, hstep]
    exact ih _ (fun x hx => hk x (List.mem_cons_of_mem k hx))

theorem canonGo_congr_changes (base : Str) (c₁ c₂ : EditMap) :
    ∀ (ps : List Parameter) (i pos : Nat),
      (∀ j, i ≤ j → j < i + ps.length → lookupEdit c₁ j = lookupEdit c₂ j) →
      canonGo base c₁ i pos ps = canonGo base c₂ i pos ps := by
  intro ps
  induction ps with
  | nil => intro i pos _; rfl
  | cons p pt ih =>
    intro i pos h
    simp only [canonGo]
    rw [h i (Nat.le_refl i) (by simp),
      ih (i + 1) p.end_pos (fun j h1 h2 => h j (by omega) (by simp; omega))]

theorem canonGo_concat (base : Str) (changes : EditMap) (q : Parameter) (v : Str) :
    ∀ (qs : List Parameter) (i pos : Nat),
      ChainOk base pos (qs ++ [q]) →
      (lookupEdit changes (i + qs.length)).getD q.original_value = v →
      canonGo base changes i pos (qs ++ [q]) =
        canonGo (base.take q.start_pos ++ v ++ base.drop q.end_pos)
          changes i pos qs := by
  intro qs
  induction qs with
  | nil =>
    intro i pos hch hv
    obtain ⟨h1, h2, h3, _, _⟩ := hch
    rw [show i + ([] : List Parameter).length = i by simp] at hv
    show sliceN base pos q.start_pos ++
        (lookupEdit changes i).getD q.original_value ++ base.drop q.end_pos =
      (base.take q.start_pos ++ v ++ base.drop q.end_pos).drop pos
    have hr : (base.take q.start_pos ++ v ++ base.drop q.end_pos).drop pos =
        (base.take q.start_pos).drop pos ++ v ++ base.drop q.end_pos := by
      rw [List.append_assoc,
        List.drop_append_of_le_length (by rw [List.length_take]; omega),
        ← List.append_assoc]
    rw [hv, hr]
    rfl
  | cons p qs' ih =>
    intro i pos hch hv
    obtain ⟨h1, h2, h3, h4, h5⟩ := hch
    have hupper := chainOk_upper base (p :: qs') q pos
      (show ChainOk base pos ((p :: qs') ++ [q]) from ⟨h1, h2, h3, h4, h5⟩)
    have hpq : p.end_pos ≤ q.start_pos :=
      hupper.2 p (List.mem_cons_self p qs')
    have hql : q.start_pos ≤ base.length := by
      have g1 := hupper.1.2.1
      have g2 := hupper.1.2.2.1
      omega
    have hslice : sliceN (base.take q.start_pos ++ v ++ base.drop q.end_pos)
        pos p.start_pos = sliceN base pos p.start_pos := by
      show ((base.take q.start_pos ++ v ++ base.drop q.end_pos).take
          p.start_pos).drop pos = (base.take p.start_pos).drop pos
      rw [List.append_assoc, List.take_append_of_le_length
          (by rw [List.length_take]; omega),
        List.take_take, Nat.min_eq_left (by omega)]
    simp only [canonGo, List.append_eq]
    simp only [List.append_eq] at h5
    rw [hslice, ih (i + 1) p.end_pos h5
      (by
        have he : (i + 1) + qs'.length = i + (p :: qs').length := by
          simp
          omega
        rw [he]
        exact hv)]

/-- Descending-order replacement (`_apply_parameter_changes`) produces the
canonical segment decomposition: replacing from the right-most edited span
first never shifts the offsets of the spans still to be processed. -/
theorem apply_eq_canonGo :
    ∀ (ps : List Parameter) (base : Str) (changes : EditMap),
      ChainOk base 0 ps →
      (∀ k ∈ keysOf changes, k < ps.length) →
      (keysOf changes).Nodup →
      applyParameterChanges base ps changes = canonGo base changes 0 0 ps := by
  intro ps
  induction ps using List.reverseRecOn with
  | nil =>
    intro base changes _ hkeys _
    have hk : keysOf changes = [] := by
      rw [List.eq_nil_iff_forall_not_mem]
      intro k hk
      exact absurd (hkeys k hk) (by simp)
    rw [applyParameterChanges, hk]
    rfl
  | append_singleton qs q ih =>
    intro base changes hchain hkeys hnd
    have hupper := chainOk_upper base qs q 0 hchain
    have hqs : q.start_pos < q.end_pos := hupper.1.2.1
    have hqe : q.end_pos ≤ base.length := hupper.1.2.2.1
    have hqv : q.original_value = sliceN base q.start_pos q.end_pos :=
      hupper.1.2.2.2
    have hkeys' : ∀ k ∈ keysOf changes, k ≤ qs.length := by
      intro k hk
      have := hkeys k hk
      simp only [List.length_append, List.length_singleton] at this
      omega
    by_cases hmem : qs.length ∈ keysOf changes
    · -- The last parameter is edited: process it first, then recurse on
      -- the prefix with the entry deleted.
      obtain ⟨v, hv⟩ := lookupEdit_isSome_of_mem hmem
      have hsort : sortDescNat (keysOf changes) =
          qs.length :: sortDescNat ((keysOf changes).erase qs.length) :=
        sortDescNat_eq_max_cons hmem hkeys' hnd
      have hstep : applyStep (qs ++ [q]) changes base qs.length =
          base.take q.start_pos ++ v ++ base.drop q.end_pos := by
        rw [applyStep, List.getElem?_concat_length, hv]
      have hrest : ∀ k ∈ sortDescNat ((keysOf changes).erase qs.length),
          k < qs.length := by
        intro k hk
        have hk2 : k ∈ (keysOf changes).erase qs.length :=
          (sortDescNat_perm _).mem_iff.mp hk
        have := (hnd.mem_erase_iff.mp hk2)
        have := hkeys' k this.2
        omega
      have htr : List.foldl (applyStep (qs ++ [q]) changes)
            (base.take q.start_pos ++ v ++ base.drop q.end_pos)
            (sortDescNat ((keysOf changes).erase qs.length)) =
          List.foldl (applyStep qs (delEdit changes qs.length))
            (base.take q.start_pos ++ v ++ base.drop q.end_pos)
            (sortDescNat ((keysOf changes).erase qs.length)) :=
        foldl_applyStep_truncate qs q changes (delEdit changes qs.length)
          (fun k hklt => lookupEdit_delEdit_ne changes (by omega)) _ _ hrest
      have hdel : sortDescNat ((keysOf changes).erase qs.length) =
          sortDescNat (keysOf (delEdit changes qs.length)) := by
        rw [keysOf_delEdit]
      have happly : applyParameterChanges base (qs ++ [q]) changes =
          applyParameterChanges
            (base.take q.start_pos ++ v ++ base.drop q.end_pos) qs
            (delEdit changes qs.length) := by
        rw [applyParameterChanges, hsort, List.foldl_cons, hstep, htr, hdel]
        rfl
      -- Invariants for the prefix over the modified base.
      have hbase' : base.take q.start_pos =
          (base.take q.start_pos ++ v ++ base.drop q.end_pos).take q.start_pos := by
        rw [List.append_assoc, List.take_append_of_le_length
          (by rw [List.length_take]; omega),
          List.take_take, Nat.min_self]
      have hlen' : q.start_pos ≤
          (base.take q.start_pos ++ v ++ base.drop q.end_pos).length := by
        simp only [List.length_append, List.length_take]
        omega
      have hchain' : ChainOk (base.take q.start_pos ++ v ++ base.drop q.end_pos)
          0 qs :=
        chainOk_of_take_eq qs 0 (chainOk_take base qs q 0 hchain)
          hupper.2 hbase' hlen'
      have hkeys2 : ∀ k ∈ keysOf (delEdit changes qs.length), k < qs.length := by
        intro k hk
        rw [keysOf_delEdit] at hk
        have := hnd.mem_erase_iff.mp hk
        have := hkeys' k this.2
        have hne := (hnd.mem_erase_iff.mp hk).1
        omega
      have hnd2 : (keysOf (delEdit changes qs.length)).Nodup := by
        rw [keysOf_delEdit]
        exact hnd.erase _
      rw [happly, ih _ _ hchain' hkeys2 hnd2]
      rw [canonGo_concat base changes q v qs 0 0 hchain (by simp [hv])]
      exact (canonGo_congr_changes _ _ _ qs 0 0 (fun j _ hj =>
        (lookupEdit_delEdit_ne changes (by simpa using Nat.ne_of_lt hj)).symm)).symm
    · -- The last parameter is untouched: the replacement list only ever
      -- touches the prefix, and the suffix segment reproduces the base.
      have hlt : ∀ k ∈ keysOf changes, k < qs.length := by
        intro k hk
        have h1 := hkeys' k hk
        have h2 : k ≠ qs.length := fun he => hmem (he ▸ hk)
        omega
      have hrest : ∀ k ∈ sortDescNat (keysOf changes), k < qs.length :=
        fun k hk => hlt k ((sortDescNat_perm _).mem_iff.mp hk)
      have happly : applyParameterChanges base (qs ++ [q]) changes =
          applyParameterChanges base qs changes := by
        rw [applyParameterChanges, applyParameterChanges]
        exact foldl_applyStep_truncate qs q changes changes
          (fun _ _ => rfl) _ _ hrest
      have hnone : lookupEdit changes qs.length = none :=
        lookupEdit_eq_none_of_not_mem changes qs.length hmem
      have hglue : base.take q.start_pos ++ q.original_value ++
          base.drop q.end_pos = base := by
        rw [hqv]
        exact glue_sliceN (Nat.le_of_lt hqs)
      rw [happly, ih base changes (chainOk_take base qs q 0 hchain) hlt hnd,
        canonGo_concat base changes q q.original_value qs 0 0 hchain
          (by simp [hnone]), hglue]

/-! ### Claim C1 — render equals the canonical string -/

/-- `parameters[i].end_pos` (proof-side counterpart of `startOf`). -/
def endOf (params : List Parameter) (i : Nat) : Nat :=
  (params[i]?).elim 0 Parameter.end_pos

/-- The length delta contributed by parameter `j`:
`len(effective_value) - len(original_value)`. -/
def deltaAt (ps : List Parameter) (changes : EditMap) (j : Nat) : Int :=
  ((effValue ps changes j).length : Int) - (origLen ps j : Int)

/-- Sum of the length deltas of the first `k` parameters. -/
def deltaSum (ps : List Parameter) (changes : EditMap) : Nat → Int
  | 0 => 0
  | k + 1 => deltaSum ps changes k + deltaAt ps changes k

theorem pySlice_natCast (s : Str) (a b : Nat) :
    pySlice s (a : Int) (b : Int) = sliceN s a b := by
  have hIdx : ∀ (k : Nat), pyIdx s.length (k : Int) = min k s.length := by
    intro k
    simp [pyIdx]
  have htake : ∀ (k : Nat), s.take (min k s.length) = s.take k := by
    intro k
    rcases Nat.le_total k s.length with h | h
    · rw [Nat.min_eq_left h]
    · rw [Nat.min_eq_right h, List.take_length, List.take_of_length_le h]
  have hdrop : ∀ (k : Nat) (t : Str), t.length ≤ s.length →
      t.drop (min k s.length) = t.drop k := by
    intro k t ht
    rcases Nat.le_total k s.length with h | h
    · rw [Nat.min_eq_left h]
    · rw [Nat.min_eq_right h, List.drop_eq_nil_of_le ht,
        List.drop_eq_nil_of_le (le_trans ht h)]
  rw [pySlice, sliceN, sliceN, hIdx, hIdx, htake,
    hdrop a _ (by rw [List.length_take]; omega)]

theorem pySliceFrom_natCast (s : Str) (a : Nat) :
    pySliceFrom s (a : Int) = s.drop a := by
  have : pyIdx s.length (a : Int) = min a s.length := by simp [pyIdx]
  rw [pySliceFrom, this]
  rcases Nat.le_total a s.length with h | h
  · rw [Nat.min_eq_left h]
  · rw [Nat.min_eq_right h, List.drop_eq_nil_of_le (le_refl _),
      List.drop_eq_nil_of_le h]

theorem sliceN_of_ge {s : Str} {a b : Nat} (h : b ≤ a) : sliceN s a b = [] := by
  apply List.drop_eq_nil_of_le
  rw [List.length_take]
  omega

theorem sliceN_add_take (s : Str) (a k : Nat) :
    sliceN s a (a + k) = (s.drop a).take k := by
  rw [sliceN, List.take_drop]

/-- The stable argsort of an already strictly-sorted parameter list is the
identity permutation. -/
theorem argsortByStart_eq_range (ps : List Parameter)
    (hmono : ∀ k, k + 1 < ps.length → startOf ps k ≤ startOf ps (k + 1)) :
    argsortByStart ps = List.range ps.length := by
  have aux : ∀ (m s : Nat), s + m ≤ ps.length →
      (List.range' s m).foldr (insertIdxByStart ps) [] = List.range' s m := by
    intro m
    induction m with
    | zero => intro s _; rfl
    | succ m ih =>
      intro s hs
      rw [List.range'_succ, List.foldr_cons, ih (s + 1) (by omega)]
      cases m with
      | zero => rfl
      | succ m' =>
        rw [List.range'_succ, insertIdxByStart,
          if_pos (hmono s (by omega)), ← List.range'_succ]
  rw [argsortByStart, List.range_eq_range']
  exact aux ps.length 0 (by omega)

/-- Index-wise facts packaged from the chain invariant. -/
theorem chainOk_idx {base : Str} :
    ∀ (ps : List Parameter) (pos : Nat), ChainOk base pos ps →
      ∀ k, k < ps.length →
        pos ≤ startOf ps k ∧ startOf ps k < endOf ps k ∧
        endOf ps k ≤ base.length ∧
        (k + 1 < ps.length → endOf ps k ≤ startOf ps (k + 1)) ∧
        origLen ps k = endOf ps k - startOf ps k := by
  intro ps
  induction ps with
  | nil => intro pos _ k hk; simp at hk
  | cons p pt ih =>
    intro pos hch k hk
    obtain ⟨h1, h2, h3, h4, h5⟩ := hch
    cases k with
    | zero =>
      have hs : startOf (p :: pt) 0 = p.start_pos := by
        simp [startOf]
      have he : endOf (p :: pt) 0 = p.end_pos := by
        simp [endOf]
      refine ⟨by rw [hs]; exact h1, by rw [hs, he]; exact h2,
        by rw [he]; exact h3, ?_, ?_⟩
      · intro hlen
        rw [he]
        cases pt with
        | nil => simp at hlen
        | cons p2 pt2 =>
          have := (ih p.end_pos h5 0 (by simp)).1
          simpa [startOf] using this
      · rw [show origLen (p :: pt) 0 = p.original_value.length by simp [origLen],
          hs, he, h4, sliceN_length (Nat.le_of_lt h2) h3]
    | succ j =>
      have hj : j < pt.length := by simpa using hk
      have := ih p.end_pos h5 j hj
      have hs : startOf (p :: pt) (j + 1) = startOf pt j := by
        simp [startOf]
      have he : endOf (p :: pt) (j + 1) = endOf pt j := by
        simp [endOf]
      have ho : origLen (p :: pt) (j + 1) = origLen pt j := by
        simp [origLen]
      refine ⟨?_, by rw [hs, he]; exact this.2.1, by rw [he]; exact this.2.2.1,
        ?_, by rw [ho, hs, he]; exact this.2.2.2.2⟩
      · rw [hs]
        exact le_trans h1 (le_trans (Nat.le_of_lt h2) this.1)
      · intro hlen
        rw [he, show startOf (p :: pt) (j + 1 + 1) = startOf pt (j + 1) by
          simp [startOf]]
        exact this.2.2.2.1 (by simpa using hlen)

theorem chainOk_start_strict {base : Str} {ps : List Parameter}
    (hch : ChainOk base 0 ps) :
    ∀ j k, j < k → k < ps.length → startOf ps j < startOf ps k := by
  have hadj : ∀ k, k + 1 < ps.length → startOf ps k < startOf ps (k + 1) := by
    intro k hk
    have h := chainOk_idx ps 0 hch k (by omega)
    exact Nat.lt_of_lt_of_le h.2.1 (h.2.2.2.1 hk)
  intro j k hjk hk
  induction k with
  | zero => omega
  | succ k ihk =>
    rcases Nat.lt_or_ge j k with h | h
    · exact Nat.lt_trans (ihk h (by omega)) (hadj k hk)
    · have : j = k := by omega
      subst this
      exact hadj j hk

theorem offsetLoop_eval (ps : List Parameter) (changes : EditMap) (idx : Nat)
    (hstrict : ∀ j, j < idx → startOf ps j < startOf ps idx) :
    ∀ (m s : Nat) (acc : Int), s ≤ idx →
      offsetLoop ps changes idx acc (List.range' s m) =
        acc + deltaSum ps changes (min idx (s + m)) -
          deltaSum ps changes s := by
  intro m
  induction m with
  | zero =>
    intro s acc hs
    rw [show List.range' s 0 = [] from rfl, offsetLoop,
      Nat.add_zero, Nat.min_eq_right hs]
    ring
  | succ m ih =>
    intro s acc hs
    rw [List.range'_succ, offsetLoop]
    by_cases hsi : idx ≤ s
    · have : s = idx := Nat.le_antisymm hs hsi
      subst this
      rw [if_pos (le_refl _), Nat.min_eq_left (by omega)]
      ring
    · rw [if_neg hsi, if_pos (hstrict s (by omega))]
      rw [ih (s + 1) _ (by omega)]
      rw [show deltaSum ps changes (s + 1) =
        deltaSum ps changes s + deltaAt ps changes s from rfl,
        show s + 1 + m = s + (m + 1) by omega]
      simp only [deltaAt]
      ring

theorem offsetFor_eval {base : Str} {ps : List Parameter}
    (hch : ChainOk base 0 ps) (changes : EditMap) (idx : Nat)
    (hidx : idx < ps.length) :
    offsetFor ps changes idx = deltaSum ps changes idx := by
  have hmono : ∀ k, k + 1 < ps.length → startOf ps k ≤ startOf ps (k + 1) := by
    intro k hk
    exact Nat.le_of_lt (chainOk_start_strict hch k (k + 1) (by omega) hk)
  rw [offsetFor, argsortByStart_eq_range ps hmono, List.range_eq_range',
    offsetLoop_eval ps changes idx
      (fun j hj => chainOk_start_strict hch j idx hj hidx) ps.length 0 0
      (by omega),
    Nat.zero_add, Nat.min_eq_left (Nat.le_of_lt hidx)]
  rw [show deltaSum ps changes 0 = 0 from rfl]
  ring

/-- The work item for index `idx`, in the delta-sum form its fields take
once the argsort and offset loops have been evaluated. -/
def workItemAt (ps : List Parameter) (changes : EditMap) (idx : Nat) : WorkItem :=
  ⟨idx, effValue ps changes idx,
    (startOf ps idx : Int) + deltaSum ps changes idx,
    (startOf ps idx : Int) + deltaSum ps changes idx +
      (effValue ps changes idx).length⟩

theorem workingParams_eq {base : Str} {ps : List Parameter}
    (hch : ChainOk base 0 ps) (changes : EditMap) :
    workingParams ps changes =
      (List.range' 0 ps.length).map (workItemAt ps changes) := by
  have hmono : ∀ k, k + 1 < ps.length → startOf ps k ≤ startOf ps (k + 1) :=
    fun k hk => Nat.le_of_lt (chainOk_start_strict hch k (k + 1) (by omega) hk)
  rw [workingParams, argsortByStart_eq_range ps hmono, List.range_eq_range']
  refine List.map_congr_left ?_
  intro idx hidx
  have hlt : idx < ps.length := by
    have := List.mem_range'_1.mp hidx
    omega
  simp only [workItemAt, offsetFor_eval hch changes idx hlt]

theorem wstart_adjacent {base : Str} {ps : List Parameter}
    (hch : ChainOk base 0 ps) (changes : EditMap) :
    ∀ k, k + 1 < ps.length →
      (startOf ps k : Int) + deltaSum ps changes k +
        (effValue ps changes k).length ≤
      (startOf ps (k + 1) : Int) + deltaSum ps changes (k + 1) := by
  intro k hk
  have hf := chainOk_idx ps 0 hch k (by omega)
  have hes : endOf ps k ≤ startOf ps (k + 1) := hf.2.2.2.1 hk
  have holen : origLen ps k = endOf ps k - startOf ps k := hf.2.2.2.2
  have hse : startOf ps k < endOf ps k := hf.2.1
  rw [show deltaSum ps changes (k + 1) =
    deltaSum ps changes k + deltaAt ps changes k from rfl]
  simp only [deltaAt]
  have hc : (origLen ps k : Int) = (endOf ps k : Int) - (startOf ps k : Int) := by
    omega
  rw [hc]
  have : (endOf ps k : Int) ≤ (startOf ps (k + 1) : Int) := by
    exact_mod_cast hes
  omega

theorem wstart_mono {base : Str} {ps : List Parameter}
    (hch : ChainOk base 0 ps) (changes : EditMap) :
    ∀ j k, j < k → k < ps.length →
      (startOf ps j : Int) + deltaSum ps changes j ≤
        (startOf ps k : Int) + deltaSum ps changes k := by
  intro j k hjk hk
  induction k with
  | zero => omega
  | succ k ihk =>
    have step : (startOf ps k : Int) + deltaSum ps changes k ≤
        (startOf ps (k + 1) : Int) + deltaSum ps changes (k + 1) := by
      have := wstart_adjacent hch changes k hk
      have hlen : (0 : Int) ≤ (effValue ps changes k).length := by positivity
      omega
    rcases Nat.lt_or_ge j k with h | h
    · exact le_trans (ihk h (by omega)) step
    · have : j = k := by omega
      subst this
      exact step

theorem sortWorking_eq_self :
    ∀ {l : List WorkItem},
      List.Pairwise (fun a b => a.wstart ≤ b.wstart) l → sortWorking l = l := by
  intro l
  induction l with
  | nil => intro _; rfl
  | cons x xs ih =>
    intro h
    rw [List.pairwise_cons] at h
    rw [sortWorking, ih h.2]
    cases xs with
    | nil => rfl
    | cons y ys =>
      rw [insertWork, if_pos (h.1 y (List.mem_cons_self y ys))]

theorem workItems_sorted {base : Str} {ps : List Parameter}
    (hch : ChainOk base 0 ps) (changes : EditMap) :
    List.Pairwise (fun a b => a.wstart ≤ b.wstart)
      ((List.range' 0 ps.length).map (workItemAt ps changes)) := by
  rw [List.pairwise_map, List.pairwise_iff_getElem]
  intro i j hi hj hij
  simp only [List.length_range'] at hi hj
  rw [List.getElem_range' i (by simpa using hi),
    List.getElem_range' j (by simpa using hj)]
  simp only [Nat.zero_add, Nat.one_mul]
  exact wstart_mono hch changes i j hij hj

/-- The rendering fold over the work items reproduces the canonical
segment decomposition: the running `last_end` always points at the spot in
the modified command where the canonical tail continues. -/
theorem renderFold_canon {base : Str} {ps : List Parameter}
    {changes : EditMap} (cc : Str) :
    ∀ (m i pos N : Nat) (acc : Str),
      i + m = ps.length →
      ChainOk base pos (ps.drop i) →
      ((N : Int) = (pos : Int) + deltaSum ps changes i) →
      cc.drop N = canonGo base changes i pos (ps.drop i) →
      N ≤ cc.length →
      (let st := List.foldl (renderPiece cc) (acc, (N : Int))
          ((List.range' i m).map (workItemAt ps changes));
        if st.2 < (cc.length : Int) then st.1 ++ pySliceFrom cc st.2
        else st.1) =
      acc ++ canonGo base changes i pos (ps.drop i) := by
  intro m
  induction m with
  | zero =>
    intro i pos N acc hlen hch hN hinv hNle
    have hi : i = ps.length := by omega
    have hdropnil : ps.drop i = [] := List.drop_eq_nil_of_le (by omega)
    rw [hdropnil] at hinv ⊢
    show (if (N : Int) < (cc.length : Int) then
        acc ++ pySliceFrom cc (N : Int) else acc) =
      acc ++ canonGo base changes i pos []
    by_cases hlt : N < cc.length
    · rw [if_pos (by exact_mod_cast hlt), pySliceFrom_natCast, hinv]
    · rw [if_neg (by exact_mod_cast hlt)]
      have hnil : cc.drop N = [] := List.drop_eq_nil_of_le (by omega)
      rw [← hinv, hnil, List.append_nil]
  | succ m ih =>
    intro i pos N acc hlen hch hN hinv hNle
    have hlt : i < ps.length := by omega
    have hdrop : ps.drop i = ps[i] :: ps.drop (i + 1) :=
      List.drop_eq_getElem_cons hlt
    set p := ps[i] with hp
    rw [hdrop] at hch
    obtain ⟨h1, h2, h3, h4, h5⟩ := hch
    have hget : ps[i]? = some p := List.getElem?_eq_getElem hlt
    have hsi : startOf ps i = p.start_pos := by
      simp [startOf, hget]
    have heff : effValue ps changes i =
        (lookupEdit changes i).getD p.original_value := by
      simp [effValue, hget]
    have holen : origLen ps i = p.original_value.length := by
      simp [origLen, hget]
    set eff := (lookupEdit changes i).getD p.original_value with heffdef
    set sliceB := sliceN base pos p.start_pos with hsliceB
    set tail := canonGo base changes (i + 1) p.end_pos (ps.drop (i + 1))
      with htail
    have hcanon : canonGo base changes i pos (ps.drop i) =
        sliceB ++ eff ++ tail := by
      rw [hdrop]
      rfl
    have hpsl : p.start_pos ≤ base.length := by omega
    have hlenB : sliceB.length = p.start_pos - pos :=
      sliceN_length h1 hpsl
    have hinv' : cc.drop N = sliceB ++ eff ++ tail := by
      rw [hinv, hcanon]
    -- The first fold step.
    have hwstart : ((p.start_pos : Int) + deltaSum ps changes i) =
        ((N + (p.start_pos - pos) : Nat) : Int) := by
      push_cast [Nat.cast_sub h1]
      omega
    have hitem : workItemAt ps changes i =
        ⟨i, eff, (p.start_pos : Int) + deltaSum ps changes i,
          (p.start_pos : Int) + deltaSum ps changes i + (eff.length : Int)⟩ := by
      rw [workItemAt]
      simp [hsi, heff]
    have hgap : (if (p.start_pos : Int) + deltaSum ps changes i > (N : Int) then
        acc ++ pySlice cc (N : Int)
          ((p.start_pos : Int) + deltaSum ps changes i) else acc) =
        acc ++ sliceB := by
      by_cases hG : pos = p.start_pos
      · rw [if_neg (by
          rw [hwstart]
          have h0 : p.start_pos - pos = 0 := by omega
          rw [h0]
          simp)]
        have hB : sliceB = [] := by
          rw [hsliceB, hG]
          exact sliceN_of_ge (le_refl _)
        rw [hB, List.append_nil]
      · have hGlt : 0 < p.start_pos - pos := by omega
        rw [if_pos (by
          rw [hwstart]
          exact_mod_cast (by omega : N < N + (p.start_pos - pos)))]
        rw [hwstart, pySlice_natCast, sliceN_add_take, hinv']
        congr 1
        rw [List.append_assoc]
        exact List.take_left' hlenB
    have hstep : renderPiece cc (acc, (N : Int)) (workItemAt ps changes i) =
        (acc ++ sliceB ++ eff,
          ((N + (p.start_pos - pos) + eff.length : Nat) : Int)) := by
      rw [hitem]
      show ((if (p.start_pos : Int) + deltaSum ps changes i > (N : Int) then
          acc ++ pySlice cc (N : Int)
            ((p.start_pos : Int) + deltaSum ps changes i) else acc) ++ eff,
          (p.start_pos : Int) + deltaSum ps changes i + (eff.length : Int)) = _
      rw [hgap, hwstart]
      refine congrArg _ ?_
      push_cast
      ring
    rw [List.range'_succ, List.map_cons, List.foldl_cons, hstep]
    -- Invariants for the recursive call.
    set N' := N + (p.start_pos - pos) + eff.length with hN'
    have hN'cast : (N' : Int) = (p.end_pos : Int) +
        deltaSum ps changes (i + 1) := by
      rw [show deltaSum ps changes (i + 1) =
        deltaSum ps changes i + deltaAt ps changes i from rfl]
      simp only [deltaAt, heff, ← heffdef, holen]
      have hol : p.original_value.length = p.end_pos - p.start_pos := by
        rw [h4, sliceN_length (Nat.le_of_lt h2) h3]
      rw [hol, hN']
      push_cast
      omega
    have hdroplen : (cc.drop N).length = cc.length - N := List.length_drop N cc
    have htl : cc.length - N =
        sliceB.length + eff.length + tail.length := by
      rw [← hdroplen, hinv']
      simp only [List.length_append]
    have hinv2 : cc.drop N' = tail := by
      rw [hN', show N + (p.start_pos - pos) + eff.length =
        N + ((p.start_pos - pos) + eff.length) by omega,
        ← List.drop_drop, hinv',
        show sliceB ++ eff ++ tail = (sliceB ++ eff) ++ tail from rfl]
      exact List.drop_left' (by rw [List.length_append, hlenB])
    have hN'le : N' ≤ cc.length := by
      rw [hN']
      omega
    have := ih (i + 1) p.end_pos N' (acc ++ sliceB ++ eff) (by omega) h5
      hN'cast hinv2 hN'le
    rw [this, hcanon]
    simp [List.append_assoc]

theorem chainOk_of_invariants (base : Str) :
    ∀ (ps : List Parameter) (pos : Nat),
      List.Pairwise (fun a b => a.end_pos ≤ b.start_pos) ps →
      (∀ p ∈ ps, p.start_pos < p.end_pos ∧ p.end_pos ≤ base.length ∧
        p.original_value = sliceN base p.start_pos p.end_pos) →
      (∀ p ∈ ps, pos ≤ p.start_pos) →
      ChainOk base pos ps := by
  intro ps
  induction ps with
  | nil => intro pos _ _ _; trivial
  | cons p pt ih =>
    intro pos hso hv hpos
    rw [List.pairwise_cons] at hso
    have hp := hv p (List.mem_cons_self p pt)
    refine ⟨hpos p (List.mem_cons_self p pt), hp.1, hp.2.1, hp.2.2, ?_⟩
    exact ih p.end_pos hso.2 (fun x hx => hv x (List.mem_cons_of_mem p hx))
      (fun x hx => hso.1 x hx)

theorem buildLive_eq_canonGo (base : Str) (ps : List Parameter)
    (changes : EditMap) (hch : ChainOk base 0 ps)
    (hkeys : ∀ k ∈ keysOf changes, k < ps.length)
    (hnd : (keysOf changes).Nodup) :
    buildLiveDisplay base ps changes = canonGo base changes 0 0 ps := by
  have hcc : (if changes.isEmpty then base
      else applyParameterChanges base ps changes) =
      canonGo base changes 0 0 ps := by
    by_cases he : changes.isEmpty
    · rw [if_pos he]
      have hnil : changes = [] := List.isEmpty_iff.mp he
      subst hnil
      exact (apply_empty_editmap_id base ps).symm.trans
        (apply_eq_canonGo ps base [] hch (by simp [keysOf]) (by simp [keysOf]))
    · rw [if_neg he]
      exact apply_eq_canonGo ps base changes hch hkeys hnd
  have hmain := @renderFold_canon base ps changes
    (canonGo base changes 0 0 ps) ps.length 0 0 0 []
    (by omega) (by simpa using hch)
    (by rw [show deltaSum ps changes 0 = 0 from rfl]; simp)
    (by simp) (by simp)
  rw [buildLiveDisplay]
  rw [hcc, workingParams_eq hch changes,
    sortWorking_eq_self (workItems_sorted hch changes)]
  simpa using hmain

/-- Claim C1: for every base command, every `ParameterSet` satisfying the
data-model invariant (sorted, pairwise non-overlapping, in-range spans
whose `original_value` is the exact substring of the base), and every edit
map over valid indices, the display string assembled by
`_build_live_command` (ascending walk with a running length delta over the
full edit map) equals the final string produced by
`_apply_parameter_changes` (descending replacement), including the empty
edit map. -/
theorem apply_render_equivalence (base : Str) (params : List Parameter)
    (changes : EditMap)
    (hsorted : List.Pairwise (fun a b => a.end_pos ≤ b.start_pos) params)
    (hvalid : ∀ p ∈ params, p.start_pos < p.end_pos ∧
      p.end_pos ≤ base.length ∧
      p.original_value = sliceN base p.start_pos p.end_pos)
    (hkeys : ∀ k ∈ keysOf changes, k < params.length)
    (hnd : (keysOf changes).Nodup) :
    buildLiveDisplay base params changes =
      applyParameterChanges base params changes := by
  have hch : ChainOk base 0 params :=
    chainOk_of_invariants base params 0 hsorted hvalid (fun _ _ => Nat.zero_le _)
  exact (buildLive_eq_canonGo base params changes hch hkeys hnd).trans
    (apply_eq_canonGo params base changes hch hkeys hnd).symm

/-- The concrete fixture of claim C1's witness. -/
def c1Param : Parameter :=
  ⟨str "File (.txt)", str "a.txt", 3, 8, str "file", [], str "Document file"⟩

/-- Witness for claim C1's theorem: a one-parameter command with one edit,
all hypotheses discharged by evaluation. -/
theorem apply_render_equivalence_witness :
    List.Pairwise (fun a b : Parameter => a.end_pos ≤ b.start_pos) [c1Param] ∧
    (∀ p ∈ [c1Param], p.start_pos < p.end_pos ∧
      p.end_pos ≤ (str "cp a.txt b").length ∧
      p.original_value = sliceN (str "cp a.txt b") p.start_pos p.end_pos) ∧
    buildLiveDisplay (str "cp a.txt b") [c1Param] [(0, str "data.csv")] =
      applyParameterChanges (str "cp a.txt b") [c1Param] [(0, str "data.csv")] :=
  ⟨List.pairwise_singleton _ _, by decide,
    apply_render_equivalence (str "cp a.txt b") [c1Param] [(0, str "data.csv")]
      (List.pairwise_singleton _ _) (by decide) (by decide) (by decide)⟩

end HowTo
